import Mathlib

/- Shallow embedding of the scoring core of the cryptofarm data processor:
   text normalization and classification (data_processor/data_classifier.py)
   and opportunity aggregation (data_processor/opportunity_analyzer.py).
   Text is modelled as List Char with ASCII character classes, Python floats
   as exact rationals (or reals where math.exp is involved), and the SQLite
   analyzed_data table as an in-memory list of rows for one project, each row
   carrying its age in days relative to the query time. -/

-- ## Character classes (ASCII model of Python's str methods and re classes)

/-- Python whitespace class, restricted to ASCII. -/
def pyWS (c : Char) : Bool :=
  c = ' ' || c = '\t' || c = '\n' || c = '\r' || c = '\x0b' || c = '\x0c'

/-- Python str.lower, restricted to ASCII (Char.toLower lowers A-Z only). -/
def lowerChar (c : Char) : Char := Char.toLower c

/-- The three replace calls in preprocess_text: '$', '#' and '@' become a space. -/
def replSym (c : Char) : Char := if c = '$' || c = '#' || c = '@' then ' ' else c

/-- Regex word class [A-Za-z0-9_]. -/
def isWordCh (c : Char) : Bool :=
  ('a' ≤ c && c ≤ 'z') || ('A' ≤ c && c ≤ 'Z') || ('0' ≤ c && c ≤ '9') || c = '_'

/-- Regex class [A-Z]. -/
def isUpperCh (c : Char) : Bool := 'A' ≤ c && c ≤ 'Z'

/-- Regex class [A-Za-z] (what [A-Z] means under re.IGNORECASE). -/
def isAlphaCh (c : Char) : Bool := ('a' ≤ c && c ≤ 'z') || ('A' ≤ c && c ≤ 'Z')

/-- Regex class [a-fA-F0-9]. -/
def isHexCh (c : Char) : Bool :=
  ('0' ≤ c && c ≤ '9') || ('a' ≤ c && c ≤ 'f') || ('A' ≤ c && c ≤ 'F')

/-- Regex class [:\s] from the discovery patterns. -/
def isSepCh (c : Char) : Bool := c = ':' || pyWS c

/-- Lower-case a character list (Python str.lower on the ASCII model). -/
def lowerL (l : List Char) : List Char := l.map lowerChar

-- ## preprocess_text (data_classifier.py lines 79-98)

/-- Characters of the literal scheme http:// in the URL regex. -/
def httpPre : List Char := ['h', 't', 't', 'p', ':', '/', '/']

/-- Characters of the literal scheme https:// in the URL regex. -/
def httpsPre : List Char := ['h', 't', 't', 'p', 's', ':', '/', '/']

/-- Scheme length at the head of the list for the regex https?://: 8 when the
    list starts with https://, 7 when it starts with http:// (the s is matched
    greedily as in the regex), and 0 when no scheme starts here. -/
def schemeLen (l : List Char) : Nat :=
  if httpsPre.isPrefixOf l then 8
  else if httpPre.isPrefixOf l then 7
  else 0

/-- The substitution re.sub(r'https?://\S+', '', text): scan left to right;
    at a position where a scheme is followed by at least one non-whitespace
    character, delete the scheme and the maximal non-whitespace run and
    continue after it; otherwise keep the character and move on. -/
def stripURLs (l : List Char) : List Char :=
  match l with
  | [] => []
  | c :: cs =>
    if schemeLen (c :: cs) = 0 then c :: stripURLs cs
    else if List.takeWhile (fun d => !pyWS d)
        (List.drop (schemeLen (c :: cs)) (c :: cs)) = [] then
      c :: stripURLs cs
    else
      stripURLs (List.dropWhile (fun d => !pyWS d)
        (List.drop (schemeLen (c :: cs)) (c :: cs)))
termination_by l.length
decreasing_by
  · simp
  · simp
  · have h1 : (List.dropWhile (fun d => !pyWS d)
        (List.drop (schemeLen (c :: cs)) (c :: cs))).length
        ≤ (List.drop (schemeLen (c :: cs)) (c :: cs)).length :=
      (List.dropWhile_sublist _).length_le
    have h2 : schemeLen (c :: cs) = 8 ∨ schemeLen (c :: cs) = 7 ∨ schemeLen (c :: cs) = 0 := by
      unfold schemeLen
      split
      · exact Or.inl rfl
      · split
        · exact Or.inr (Or.inl rfl)
        · exact Or.inr (Or.inr rfl)
    have h3 : (List.drop (schemeLen (c :: cs)) (c :: cs)).length
        = (c :: cs).length - schemeLen (c :: cs) :=
      List.length_drop _ _
    have h4 : (c :: cs).length = cs.length + 1 := rfl
    rename_i hz _
    omega

/-- The substitution re.sub(r'\s+', ' ', text): every maximal whitespace run
    becomes a single space. -/
def collapseWS : List Char → List Char
  | [] => []
  | c :: cs =>
    if pyWS c then
      match collapseWS cs with
      | ' ' :: t => ' ' :: t
      | r => ' ' :: r
    else c :: collapseWS cs

/-- Remove trailing whitespace (the right half of Python str.strip). -/
def dropTrailingWS : List Char → List Char
  | [] => []
  | c :: cs =>
    let r := dropTrailingWS cs
    if pyWS c ∧ r = [] then [] else c :: r

/-- Python str.strip on the ASCII whitespace model. -/
def pyStrip (l : List Char) : List Char := dropTrailingWS (l.dropWhile pyWS)

/-- DataClassifier.preprocess_text: lower-case, neutralize $ # @, remove URLs,
    collapse whitespace and strip. -/
def preprocess_text (l : List Char) : List Char :=
  pyStrip (collapseWS (stripURLs ((l.map lowerChar).map replSym)))

-- ## Substring search and counting (Python `in` and str.count)

/-- Python substring containment: needle in hay. -/
def containsSub (needle hay : List Char) : Bool :=
  hay.tails.any (fun t => needle.isPrefixOf t)

/-- Python str.count: number of non-overlapping occurrences, scanning left
    to right and jumping over each occurrence found. -/
def countOcc (needle : List Char) (hay : List Char) : Nat :=
  match hay with
  | [] => 0
  | c :: cs =>
    if h : needle ≠ [] ∧ needle.isPrefixOf (c :: cs) then
      1 + countOcc needle (List.drop needle.length (c :: cs))
    else
      countOcc needle cs
termination_by hay.length
decreasing_by
  · have hn : needle.length ≠ 0 := by
      intro h0
      exact h.1 (List.eq_nil_of_length_eq_zero h0)
    have h3 : (List.drop needle.length (c :: cs)).length = (c :: cs).length - needle.length :=
      List.length_drop _ _
    have h4 : (c :: cs).length = cs.length + 1 := rfl
    omega
  · simp

-- ## URL-freeness predicate used to reason about stripURLs

/-- True when the URL regex https?://\S+ matches at the head of the list. -/
def matchAtHead (l : List Char) : Bool :=
  if schemeLen l = 0 then false
  else
    match List.drop (schemeLen l) l with
    | [] => false
    | d :: _ => !pyWS d

/-- True when the URL regex matches anywhere in the list. -/
def hasURL : List Char → Bool
  | [] => false
  | c :: cs => matchAtHead (c :: cs) || hasURL cs

-- ## Regex scanners for the fixed patterns of data_classifier.py

/-- Case-insensitive literal test: lit (given lower-case) is a prefix of the
    lowercasing of l. -/
def ciMatch : List Char → List Char → Bool
  | [], _ => true
  | _ :: _, [] => false
  | a :: as, b :: bs => lowerChar b = a && ciMatch as bs

/-- re.findall for the two discovery patterns of the form
    LIT[:\s]+([A-Za-z0-9_]+) with re.IGNORECASE (LIT is "new project" or
    "upcoming project").  The separator and word classes are disjoint, so
    greedy matching without backtracking is exact. -/
def scanA (lit : List Char) (l : List Char) : List (List Char) :=
  match l with
  | [] => []
  | c :: cs =>
    if ciMatch lit (c :: cs) then
      if h : List.takeWhile isSepCh (List.drop lit.length (c :: cs)) ≠ [] ∧
          List.takeWhile isWordCh (List.dropWhile isSepCh (List.drop lit.length (c :: cs))) ≠ [] then
        List.takeWhile isWordCh (List.dropWhile isSepCh (List.drop lit.length (c :: cs))) ::
          scanA lit (List.drop
            (List.takeWhile isWordCh (List.dropWhile isSepCh (List.drop lit.length (c :: cs)))).length
            (List.dropWhile isSepCh (List.drop lit.length (c :: cs))))
      else scanA lit cs
    else scanA lit cs
termination_by l.length
decreasing_by
  · have e1 : (List.drop
        (List.takeWhile isWordCh (List.dropWhile isSepCh (List.drop lit.length (c :: cs)))).length
        (List.dropWhile isSepCh (List.drop lit.length (c :: cs)))).length
        = (List.dropWhile isSepCh (List.drop lit.length (c :: cs))).length -
          (List.takeWhile isWordCh (List.dropWhile isSepCh (List.drop lit.length (c :: cs)))).length :=
      List.length_drop _ _
    have e2 : (List.dropWhile isSepCh (List.drop lit.length (c :: cs))).length
        ≤ (List.drop lit.length (c :: cs)).length := (List.dropWhile_sublist _).length_le
    have e3 : (List.drop lit.length (c :: cs)).length ≤ (c :: cs).length :=
      (List.drop_sublist _ _).length_le
    have e4 : (List.takeWhile isWordCh (List.dropWhile isSepCh (List.drop lit.length (c :: cs)))).length ≠ 0 := by
      intro h0
      exact h.2 (List.eq_nil_of_length_eq_zero h0)
    have h4 : (c :: cs).length = cs.length + 1 := rfl
    omega
  · simp
  · simp

/-- re.findall for the three discovery patterns of the form
    ([A-Za-z0-9_]+)LIT with re.IGNORECASE, where LIT starts with a space
    (" is launching", " token launch", " airdrop").  Since every character of
    the captured class is a non-space, only the maximal word run before the
    literal can match, so greedy matching is exact. -/
def scanB (lit : List Char) (l : List Char) : List (List Char) :=
  match l with
  | [] => []
  | c :: cs =>
    if hw : isWordCh c then
      if ciMatch lit (List.drop (List.takeWhile isWordCh (c :: cs)).length (c :: cs)) then
        List.takeWhile isWordCh (c :: cs) ::
          scanB lit (List.drop lit.length
            (List.drop (List.takeWhile isWordCh (c :: cs)).length (c :: cs)))
      else scanB lit cs
    else scanB lit cs
termination_by l.length
decreasing_by
  · have e1 : (List.drop lit.length
        (List.drop (List.takeWhile isWordCh (c :: cs)).length (c :: cs))).length
        ≤ (List.drop (List.takeWhile isWordCh (c :: cs)).length (c :: cs)).length :=
      (List.drop_sublist _ _).length_le
    have e2 : (List.drop (List.takeWhile isWordCh (c :: cs)).length (c :: cs)).length
        = (c :: cs).length - (List.takeWhile isWordCh (c :: cs)).length :=
      List.length_drop _ _
    have e3 : List.takeWhile isWordCh (c :: cs) = c :: List.takeWhile isWordCh cs := by
      simp [List.takeWhile_cons, hw]
    have e4 : (List.takeWhile isWordCh (c :: cs)).length
        = (List.takeWhile isWordCh cs).length + 1 := by
      rw [e3]; rfl
    have h4 : (c :: cs).length = cs.length + 1 := rfl
    omega
  · simp
  · simp

/-- Characters of the literal " launch" in the last discovery pattern. -/
def launchLit : List Char := [' ', 'l', 'a', 'u', 'n', 'c', 'h']

/-- re.findall for the discovery pattern \$([A-Z]{2,10}) launch with
    re.IGNORECASE (so the class is [A-Za-z]).  Only the maximal letter run
    after the dollar sign can be followed by the space of the literal, so the
    run must have length 2..10 and be followed by " launch". -/
def scanC (l : List Char) : List (List Char) :=
  match l with
  | [] => []
  | c :: cs =>
    if c = '$' then
      if (2 ≤ (List.takeWhile isAlphaCh cs).length ∧ (List.takeWhile isAlphaCh cs).length ≤ 10) ∧
          ciMatch launchLit (List.drop (List.takeWhile isAlphaCh cs).length cs) then
        List.takeWhile isAlphaCh cs ::
          scanC (List.drop launchLit.length (List.drop (List.takeWhile isAlphaCh cs).length cs))
      else scanC cs
    else scanC cs
termination_by l.length
decreasing_by
  · have e1 : (List.drop launchLit.length
        (List.drop (List.takeWhile isAlphaCh cs).length cs)).length
        ≤ (List.drop (List.takeWhile isAlphaCh cs).length cs).length :=
      (List.drop_sublist _ _).length_le
    have e2 : (List.drop (List.takeWhile isAlphaCh cs).length cs).length ≤ cs.length :=
      (List.drop_sublist _ _).length_le
    have h4 : (c :: cs).length = cs.length + 1 := rfl
    omega
  · simp
  · simp

/-- Word-boundary test \b after the symbol group: end of text or a non-word
    character. -/
def wordBoundary : List Char → Bool
  | [] => true
  | d :: _ => !isWordCh d

/-- re.findall(r'\$([A-Z]{2,10})\b', text) with no flags (case sensitive):
    a dollar sign, a run of 2..10 upper-case letters, then a word boundary.
    Characters inside the run are word characters, so only the maximal
    upper-case run can be followed by a boundary. -/
def findSymbols (l : List Char) : List (List Char) :=
  match l with
  | [] => []
  | c :: cs =>
    if c = '$' then
      if 2 ≤ (List.takeWhile isUpperCh cs).length ∧ (List.takeWhile isUpperCh cs).length ≤ 10 ∧
          wordBoundary (List.drop (List.takeWhile isUpperCh cs).length cs) then
        List.takeWhile isUpperCh cs ::
          findSymbols (List.drop (List.takeWhile isUpperCh cs).length cs)
      else findSymbols cs
    else findSymbols cs
termination_by l.length
decreasing_by
  · have e2 : (List.drop (List.takeWhile isUpperCh cs).length cs).length ≤ cs.length :=
      (List.drop_sublist _ _).length_le
    have h4 : (c :: cs).length = cs.length + 1 := rfl
    omega
  · simp
  · simp

/-- re.findall(r'0x[a-fA-F0-9]{40}', text): 0x followed by exactly 40 hex
    characters; findall returns the whole match (the pattern has no group). -/
def findContracts (l : List Char) : List (List Char) :=
  match l with
  | '0' :: 'x' :: rest =>
    if (rest.take 40).length = 40 ∧ (rest.take 40).all isHexCh then
      ('0' :: 'x' :: rest.take 40) :: findContracts (rest.drop 40)
    else findContracts ('x' :: rest)
  | _ :: cs => findContracts cs
  | [] => []
termination_by l.length
decreasing_by
  · have e2 : (rest.drop 40).length ≤ rest.length := (List.drop_sublist _ _).length_le
    simp
    omega
  · simp
  · simp

-- ## Classifier state (config-derived registries) and records

/-- Entry of DataClassifier.tracked_channels: weight and owning project. -/
structure ChannelInfo where
  weight : ℚ
  project : List Char
deriving DecidableEq

/-- One element of a tracked_keywords value: project name and its tier. -/
structure KeywordEntry where
  project : List Char
  priority : String
deriving DecidableEq

/-- One entry of ProjectConfig.get_all_projects(): the fields identify_projects
    reads (name, symbol, priority tier, contract addresses). -/
structure TrackedProject where
  name : List Char
  symbol : List Char
  priority : String
  contracts : List (List Char)
deriving DecidableEq

/-- The classifier state as loaded in DataClassifier.__init__. -/
structure ClassifierConfig where
  tracked_channels : List (String × ChannelInfo)
  tracked_keywords : List (List Char × List KeywordEntry)
  all_projects : List TrackedProject
deriving DecidableEq

/-- One matched-project candidate appended by identify_projects.  The priority
    field is an Option because the channel branch appends a dict without a
    'priority' key. -/
structure ProjMatch where
  name : List Char
  priority : Option String
  confidence : ℚ
  source : String
deriving DecidableEq

/-- Channel branch of identify_projects (lines 112-118). -/
def channelCandidates (cfg : ClassifierConfig) (channel : Option String) : List ProjMatch :=
  match channel with
  | none => []
  | some ch =>
    match cfg.tracked_channels.find? (fun e => e.1 = ch) with
    | some e => [{ name := e.2.project, priority := none,
                   confidence := e.2.weight, source := "channel" }]
    | none => []

/-- Keyword branch of identify_projects (lines 121-129). -/
def keywordCandidates (cfg : ClassifierConfig) (t : List Char) : List ProjMatch :=
  (cfg.tracked_keywords.filter (fun e => containsSub e.1 t)).flatMap
    (fun e => e.2.map (fun p =>
      { name := p.project, priority := some p.priority,
        confidence := if p.priority = "high_priority" then 4/5 else 3/5,
        source := "keyword" }))

/-- Symbol branch of identify_projects (lines 131-142): the $-symbol regex is
    run on the preprocessed text t. -/
def symbolCandidates (cfg : ClassifierConfig) (t : List Char) : List ProjMatch :=
  (findSymbols t).flatMap (fun sym =>
    (cfg.all_projects.filter (fun p => lowerL sym = lowerL p.symbol)).map (fun p =>
      { name := p.name, priority := some p.priority,
        confidence := 7/10, source := "symbol" }))

/-- Contract branch of identify_projects (lines 144-154). -/
def contractCandidates (cfg : ClassifierConfig) (t : List Char) : List ProjMatch :=
  (findContracts t).flatMap (fun con =>
    (cfg.all_projects.filter (fun p => (p.contracts.map lowerL).contains (lowerL con))).map
      (fun p =>
        { name := p.name, priority := some p.priority,
          confidence := 9/10, source := "contract" }))

/-- Deduplication loop of identify_projects (lines 156-160): keep the first
    candidate for each exact name. -/
def dedupByName (l : List ProjMatch) : List ProjMatch :=
  l.foldl (fun acc p => if acc.any (fun q => q.name = p.name) then acc else acc ++ [p]) []

/-- DataClassifier.identify_projects (lines 106-162). -/
def identify_projects (cfg : ClassifierConfig) (text : List Char)
    (channel : Option String) : List ProjMatch :=
  let t := preprocess_text text
  dedupByName (channelCandidates cfg channel ++ keywordCandidates cfg t ++
    symbolCandidates cfg t ++ contractCandidates cfg t)

-- ## Priority scoring (data_classifier.py lines 206-243)

/-- One Classification as consumed by calculate_priority_score. -/
structure Analysis where
  projects : List ProjMatch
  context : List String
  categories : List String
  source_weight : ℚ
deriving DecidableEq

/-- Maximum of a list of rationals, as Python max over a non-empty sequence. -/
def listMaxQ : List ℚ → ℚ
  | [] => 0
  | [x] => x
  | x :: y :: t => max x (listMaxQ (y :: t))

/-- Project multiplier of calculate_priority_score (lines 211-216): the max of
    1.5-or-1.2 over the matched projects, but only when at least one matched
    project carries a 'priority' key; otherwise 1.0. -/
def project_multiplier (ps : List ProjMatch) : ℚ :=
  if ps.any (fun p => p.priority.isSome) then
    listMaxQ (ps.map (fun p => if p.priority = some "high_priority" then 3/2 else 6/5))
  else 1

/-- DataClassifier.calculate_priority_score (lines 206-243): the sequential
    score *= factor chain written as a product. -/
def calculate_priority_score (a : Analysis) : ℚ :=
  (if a.projects ≠ [] then project_multiplier a.projects else 1) *
  (if "high_impact" ∈ a.context then 13/10 else 1) *
  (if "time_sensitive" ∈ a.context then 7/5 else 1) *
  (if "alpha" ∈ a.context then 6/5 else 1) *
  (if "risk" ∈ a.context then 3/2 else 1) *
  (if "opportunity" ∈ a.context then 5/4 else 1) *
  (if "urgent_action" ∈ a.categories then 3/2 else 1) *
  (if "active_investment" ∈ a.categories then 13/10 else 1) *
  (if "project_launch" ∈ a.categories then 5/4 else 1) *
  (if "upcoming_opportunity" ∈ a.categories then 27/20 else 1) *
  a.source_weight

-- ## New-project discovery (data_classifier.py lines 245-280)

/-- The six discovery regexes of DataClassifier.discovery_patterns (lines
    70-77), each as its findall scanner. -/
def discovery_patterns : List (List Char → List (List Char)) :=
  [scanA ("new project".data), scanA ("upcoming project".data),
   scanB (" is launching".data), scanB (" token launch".data),
   scanB (" airdrop".data), scanC]

/-- The nearby_keywords list of detect_new_projects (line 264). -/
def nearby_keywords : List (List Char) :=
  ["launch".data, "token".data, "project".data, "airdrop".data, "whitelist".data]

/-- Number of nearby keywords contained in text.lower() (line 265). -/
def nearbyCount (text : List Char) : Nat :=
  (nearby_keywords.filter (fun k => containsSub k (lowerL text))).length

/-- text.lower().count(match.lower()) (line 259). -/
def mentionCount (text : List Char) (m : List Char) : Nat :=
  countOcc (lowerL m) (lowerL text)

/-- Confidence computation of detect_new_projects (lines 256-266): base 0.6,
    plus min(0.2, mention_count * 0.05) when the name occurs more than once,
    plus min(0.2, nearby_count * 0.04). -/
def discovery_confidence (text : List Char) (m : List Char) : ℚ :=
  let base : ℚ := 3/5
  let withRep : ℚ :=
    if 1 < mentionCount text m then base + min (1/5) ((mentionCount text m : ℚ) * (1/20))
    else base
  withRep + min (1/5) ((nearbyCount text : ℚ) * (1/25))

/-- Case-insensitive membership test against the tracked projects (line 254). -/
def isTracked (cfg : ClassifierConfig) (m : List Char) : Bool :=
  cfg.all_projects.any (fun p => lowerL p.name = lowerL m)

/-- One candidate discovery. -/
structure Candidate where
  name : List Char
  confidence : ℚ
  source : String
deriving DecidableEq

/-- Deduplication loop of detect_new_projects (lines 274-278): first kept,
    compared case-insensitively. -/
def dedupCandidates (l : List Candidate) : List Candidate :=
  l.foldl (fun acc p =>
    if acc.any (fun q => lowerL q.name = lowerL p.name) then acc else acc ++ [p]) []

/-- DataClassifier.detect_new_projects (lines 245-280): run every discovery
    pattern, keep untracked captures with their confidence, deduplicate. -/
def detect_new_projects (cfg : ClassifierConfig) (text : List Char) : List Candidate :=
  dedupCandidates
    (((discovery_patterns.map (fun pat => pat text)).flatten.filter
        (fun m => !isTracked cfg m)).map
      (fun m => { name := m, confidence := discovery_confidence text m,
                  source := "discovery" }))

-- ## Opportunity analyzer (opportunity_analyzer.py)

/-- One analyzed_data row for a project: ageDays is the distance from now to
    analysis_timestamp, contexts and categories are the JSON-decoded lists
    stored by the classifier, content is the joined raw_data content. -/
structure AnalyzedRecord where
  ageDays : ℚ
  contexts : List String
  categories : List String
  priority_score : ℚ
  content : List Char
deriving DecidableEq

/-- Row filter for analysis_timestamp >= datetime('now', '-d days'). -/
def withinDays (d : ℚ) (r : AnalyzedRecord) : Bool := decide (r.ageDays ≤ d)

/-- The COUNT(*) of rows of the last d days (the activity query, lines
    105-112; a COUNT query always yields exactly one row). -/
def countWindow (db : List AnalyzedRecord) (d : ℚ) : Nat :=
  (db.filter (withinDays d)).length

/-- The COUNT(*) of rows between 14 and 7 days ago (query_previous of
    calculate_community_growth, lines 140-146). -/
def countPrevWindow (db : List AnalyzedRecord) : Nat :=
  (db.filter (fun r => decide (7 < r.ageDays) && decide (r.ageDays ≤ 14))).length

/-- Body of calculate_activity_score after the query (lines 114-123),
    applied to the fetchall result list of the COUNT query.  The empty-list
    guard mirrors `if not results: return 0.0`. -/
noncomputable def activityFromResults (results : List Nat) : ℝ :=
  match results with
  | [] => 0
  | mention_count :: _ => 1 / (1 + Real.exp (-(2/5) * ((mention_count : ℝ) - 5)))

/-- OpportunityAnalyzer.calculate_activity_score (lines 102-126); the COUNT
    query returns the one-row list [countWindow db days]. -/
noncomputable def calculate_activity_score (db : List AnalyzedRecord) (days : ℚ) : ℝ :=
  activityFromResults [countWindow db days]

/-- Body of calculate_community_growth after the queries (lines 151-171),
    applied to the two one-row fetchall results. -/
noncomputable def growthFromResults (recents previouss : List Nat) : ℝ :=
  match recents, previouss with
  | [], _ => 0
  | _ :: _, [] => 0
  | recent :: _, previous :: _ =>
    let growth_rate : ℝ := if previous = 0 then (recent : ℝ) else (recent : ℝ) / (previous : ℝ)
    1 / (1 + Real.exp (-(3/2) * (growth_rate - 1)))

/-- OpportunityAnalyzer.calculate_community_growth (lines 128-174). -/
noncomputable def calculate_community_growth (db : List AnalyzedRecord) : ℝ :=
  growthFromResults [countWindow db 7] [countPrevWindow db]

/-- A row whose context list holds a positive context (lines 193, 209-210). -/
def positiveCtx (r : AnalyzedRecord) : Bool :=
  r.contexts.any (fun c => c = "opportunity" || c = "alpha")

/-- A row whose context list holds a negative context (lines 194, 212-213). -/
def negativeCtx (r : AnalyzedRecord) : Bool := r.contexts.any (fun c => c = "risk")

/-- OpportunityAnalyzer.calculate_sentiment_score (lines 176-236): over the
    14-day window, 0.5 + positive_share/2 - negative_share/2 clamped to
    [0, 1]; 0.5 when there are no rows. -/
def calculate_sentiment_score (db : List AnalyzedRecord) : ℚ :=
  let results := db.filter (withinDays 14)
  if results = [] then 1/2
  else
    let total : ℚ := results.length
    let pos : ℚ := (results.filter positiveCtx).length
    let neg : ℚ := (results.filter negativeCtx).length
    if total = 0 then 1/2
    else max 0 (min 1 (1/2 + pos / total * (1/2) - neg / total * (1/2)))

/-- Row filter of the urgency query (lines 242-250): last 7 days and
    priority_score >= 1.3. -/
def urgencyQualifies (r : AnalyzedRecord) : Bool :=
  decide (r.ageDays ≤ 7) && decide ((13 : ℚ)/10 ≤ r.priority_score)

/-- Insertion into a descending-priority sorted list (model of ORDER BY
    priority_score DESC). -/
def insertDesc (x : AnalyzedRecord) : List AnalyzedRecord → List AnalyzedRecord
  | [] => [x]
  | y :: ys => if y.priority_score < x.priority_score then x :: y :: ys
               else y :: insertDesc x ys

/-- Descending sort by priority_score (model of ORDER BY priority_score DESC;
    the order among ties is unspecified by SQL and chosen by this sort). -/
def sortDesc : List AnalyzedRecord → List AnalyzedRecord
  | [] => []
  | x :: xs => insertDesc x (sortDesc xs)

/-- Result set of the urgency query: qualifying rows sorted by descending
    priority_score, LIMIT 10. -/
def topUrgent (db : List AnalyzedRecord) : List AnalyzedRecord :=
  (sortDesc (db.filter urgencyQualifies)).take 10

/-- Time-sensitive test of calculate_urgency_score (lines 273-275). -/
def timeSensitiveRec (r : AnalyzedRecord) : Bool :=
  r.contexts.contains "time_sensitive" || r.categories.contains "urgent_action" ||
    r.categories.contains "upcoming_opportunity"

/-- The max-priority loop of calculate_urgency_score (lines 260-266),
    starting from 0.0. -/
def maxPriorityScore (rs : List AnalyzedRecord) : ℚ :=
  rs.foldl (fun m r => if m < r.priority_score then r.priority_score else m) 0

/-- OpportunityAnalyzer.calculate_urgency_score (lines 238-295). -/
def calculate_urgency_score (db : List AnalyzedRecord) : ℚ :=
  let results := topUrgent db
  if results = [] then 0
  else
    let total : ℚ := results.length
    let ts : ℚ := (results.filter timeSensitiveRec).length
    let tsShare : ℚ := if (0 : ℚ) < total then ts / total else 0
    let maxP := maxPriorityScore results
    let normP : ℚ := if 1 < maxP then min 1 ((maxP - 1) / 1) else 0
    tsShare * (3/5) + normP * (2/5)

/-- One entry of OpportunityAnalyzer.opportunity_categories (lines 36-79). -/
structure OppCategory where
  name : String
  keywords : List (List Char)
  effort_level : String
  time_sensitivity : String
  roi_potential : String

/-- OpportunityAnalyzer.opportunity_categories (lines 36-79). -/
def opportunity_categories : List OppCategory :=
  [{ name := "airdrop",
     keywords := ["airdrop".data, "free".data, "claim".data, "distribution".data,
                  "eligible".data],
     effort_level := "low", time_sensitivity := "high", roi_potential := "medium" },
   { name := "testnet",
     keywords := ["testnet".data, "test".data, "validator".data, "node".data,
                  "incentivized".data],
     effort_level := "medium", time_sensitivity := "medium", roi_potential := "high" },
   { name := "whitelist",
     keywords := ["whitelist".data, "allowlist".data, "wl".data, "presale".data,
                  "early".data],
     effort_level := "low", time_sensitivity := "high", roi_potential := "high" },
   { name := "staking",
     keywords := ["stake".data, "staking".data, "locked".data, "yield".data,
                  "reward".data, "apr".data, "apy".data],
     effort_level := "low", time_sensitivity := "low", roi_potential := "medium" },
   { name := "farming",
     keywords := ["farm".data, "farming".data, "liquidity".data, "pool".data,
                  "yield".data],
     effort_level := "medium", time_sensitivity := "medium", roi_potential := "medium" },
   { name := "token_launch",
     keywords := ["launch".data, "listing".data, "ido".data, "ico".data,
                  "public sale".data],
     effort_level := "high", time_sensitivity := "high", roi_potential := "high" },
   { name := "community_tasks",
     keywords := ["task".data, "quest".data, "mission".data, "bounty".data,
                  "ambassador".data],
     effort_level := "medium", time_sensitivity := "medium", roi_potential := "low" }]

/-- The category_to_opp map of detect_opportunity_type (lines 339-344). -/
def category_to_opp : List (String × List String) :=
  [("upcoming_opportunity", ["whitelist", "airdrop", "token_launch"]),
   ("active_investment", ["staking", "farming"]),
   ("testnet_participation", ["testnet"]),
   ("community", ["community_tasks"])]

/-- Contribution of one row to a type counter in detect_opportunity_type
    (lines 319-351): rows with empty content are skipped entirely; a keyword
    hit adds 1; each matching category mapping adds 0.5. -/
def recTypeContribution (c : OppCategory) (r : AnalyzedRecord) : ℚ :=
  if r.content = [] then 0
  else
    (if c.keywords.any (fun k => containsSub k (lowerL r.content)) then 1 else 0) +
    ((category_to_opp.filter
        (fun e => r.categories.contains e.1 && e.2.contains c.name)).length : ℚ) * (1/2)

/-- Total counter of one opportunity type over the result rows. -/
def typeCount (rs : List AnalyzedRecord) (c : OppCategory) : ℚ :=
  (rs.map (recTypeContribution c)).sum

/-- OpportunityAnalyzer.detect_opportunity_type (lines 297-369): the first
    type with a strictly largest counter wins, starting from ("unknown", 0);
    confidence is the winning counter over the row count, capped at 1. -/
def detect_opportunity_type (db : List AnalyzedRecord) : String × ℚ :=
  let results := db.filter (withinDays 7)
  if results = [] then ("unknown", 0)
  else
    let best := (opportunity_categories.map (fun c => (c.name, typeCount results c))).foldl
      (fun acc tc => if acc.2 < tc.2 then tc else acc) ("unknown", 0)
    let total : ℚ := results.length
    let conf := if (0 : ℚ) < total then min 1 (best.2 / total) else 0
    (best.1, conf)

/-- The roi_levels dict with its .get default 1.0 (lines 89-93, 382). -/
def roi_levels (s : String) : ℚ :=
  if s = "low" then 1 else if s = "medium" then 2 else if s = "high" then 3 else 1

/-- OpportunityAnalyzer.calculate_roi_potential (lines 371-400) for an
    existing project. -/
noncomputable def calculate_roi_potential (db : List AnalyzedRecord)
    (opportunity_type : String) : ℝ :=
  let base : ℚ :=
    match opportunity_categories.find? (fun c => c.name = opportunity_type) with
    | some c => roi_levels c.roi_potential
    | none => 1
  let activity := calculate_activity_score db 7
  let sentiment : ℝ := ((calculate_sentiment_score db : ℚ) : ℝ)
  let adjusted : ℝ := (Rat.cast base : ℝ) * (1 + (activity - 1/2) * (1/2) + (sentiment - 1/2) * (1/2))
  max 0 (min 1 (adjusted / 3))

/-- The result dict of calculate_opportunity_score (lines 450-466). -/
structure OpportunityResult where
  activity : ℝ
  community_growth : ℝ
  sentiment : ℝ
  urgency : ℝ
  roi_potential : ℝ
  opportunity_type : String
  opportunity_confidence : ℚ
  opportunity_score : ℝ
  effort_level : String
  time_sensitivity : String
  worth_participating : Prop

/-- OpportunityAnalyzer.calculate_opportunity_score (lines 402-475) for an
    existing project: the five components combined with the fixed weights
    0.25/0.15/0.15/0.20/0.25 and scaled by 100. -/
noncomputable def calculate_opportunity_score (db : List AnalyzedRecord) : OpportunityResult :=
  let activity := calculate_activity_score db 7
  let growth := calculate_community_growth db
  let sentiment : ℝ := ((calculate_sentiment_score db : ℚ) : ℝ)
  let urgency : ℝ := ((calculate_urgency_score db : ℚ) : ℝ)
  let od := detect_opportunity_type db
  let roi := calculate_roi_potential db od.1
  let weighted := activity * (1/4) + growth * (3/20) + sentiment * (3/20) +
    urgency * (1/5) + roi * (1/4)
  let score := weighted * 100
  let eff := match opportunity_categories.find? (fun c => c.name = od.1) with
    | some c => c.effort_level
    | none => "medium"
  let tsl := match opportunity_categories.find? (fun c => c.name = od.1) with
    | some c => c.time_sensitivity
    | none => "medium"
  { activity := activity, community_growth := growth, sentiment := sentiment,
    urgency := urgency, roi_potential := roi, opportunity_type := od.1,
    opportunity_confidence := od.2, opportunity_score := score,
    effort_level := eff, time_sensitivity := tsl,
    worth_participating := score ≥ 70 }

-- ## Concrete instances used by counterexamples and witnesses

/-- A classification whose only matched project came from the channel branch
    of identify_projects (and so carries no priority key). -/
def analysisChannelOnly : Analysis :=
  { projects := [{ name := "ProjX".data, priority := none, confidence := 1,
                   source := "channel" }],
    context := [], categories := [], source_weight := 1 }

/-- A classification with one high-tier keyword match, one context indicator,
    one scoring category, and the general source weight 0.4. -/
def analysisKwHigh : Analysis :=
  { projects := [{ name := "ProjY".data, priority := some "high_priority",
                   confidence := 4/5, source := "keyword" }],
    context := ["time_sensitive"], categories := ["urgent_action"],
    source_weight := 2/5 }

/-- A classification with no matches at all and weight 1. -/
def analysisBare : Analysis :=
  { projects := [], context := [], categories := [], source_weight := 1 }

/-- The same classification with one more context indicator and category. -/
def analysisMore : Analysis :=
  { projects := [], context := ["risk"], categories := ["urgent_action"],
    source_weight := 1 }

/-- A classifier configuration with nothing tracked. -/
def cfgEmpty : ClassifierConfig :=
  { tracked_channels := [], tracked_keywords := [], all_projects := [] }

/-- A configuration tracking one high-tier project with symbol ABC and no
    channels, keywords or contracts. -/
def cfgSymbolABC : ClassifierConfig :=
  { tracked_channels := [], tracked_keywords := [],
    all_projects := [{ name := "ABC Protocol".data, symbol := "ABC".data,
                       priority := "high_priority", contracts := [] }] }

/-- A text with a $-symbol mention of the tracked symbol ABC. -/
def textDollarABC : List Char := "$ABC airdrop".data

/-- A single unembellished mention of a novel name in discovery pattern 1. -/
def textNewProject : List Char := "new project: zorgon".data

/-- A single unembellished mention of a novel name in discovery pattern 2. -/
def textUpcoming : List Char := "upcoming project: blarg".data

/-- A novel name matched by pattern 3 and mentioned twice. -/
def textNewcoin : List Char := "newcoin is launching newcoin".data

/-- Another single unembellished mention of a novel name in pattern 1. -/
def textQoxat : List Char := "new project: qoxat".data

/-- A qualifying urgency row with priority score 2. -/
def recTwo : AnalyzedRecord :=
  { ageDays := 1, contexts := ["time_sensitive"], categories := [],
    priority_score := 2, content := ['x'] }

/-- A qualifying urgency row with the lower priority score 1.5. -/
def recLow : AnalyzedRecord :=
  { ageDays := 1, contexts := [], categories := [], priority_score := 3/2,
    content := ['x'] }

/-- Ten qualifying rows of priority 2. -/
def dbTen : List AnalyzedRecord :=
  [recTwo, recTwo, recTwo, recTwo, recTwo, recTwo, recTwo, recTwo, recTwo, recTwo]


-- ## Theorems

-- ### Bounds of the logistic normalization 1/(1+exp)

theorem sigmoid_pos (x : ℝ) : 0 < 1 / (1 + Real.exp x) := by
  have h := Real.exp_pos x
  have h1 : (0 : ℝ) < 1 + Real.exp x := by linarith
  exact div_pos one_pos h1

theorem sigmoid_le_one (x : ℝ) : 1 / (1 + Real.exp x) ≤ 1 := by
  have h := Real.exp_pos x
  rw [div_le_one (by linarith)]
  linarith

theorem activity_score_bounds (db : List AnalyzedRecord) (d : ℚ) :
    0 ≤ calculate_activity_score db d ∧ calculate_activity_score db d ≤ 1 := by
  unfold calculate_activity_score activityFromResults
  exact ⟨le_of_lt (sigmoid_pos _), sigmoid_le_one _⟩

theorem community_growth_bounds (db : List AnalyzedRecord) :
    0 ≤ calculate_community_growth db ∧ calculate_community_growth db ≤ 1 := by
  unfold calculate_community_growth growthFromResults
  exact ⟨le_of_lt (sigmoid_pos _), sigmoid_le_one _⟩

theorem sentiment_score_bounds (db : List AnalyzedRecord) :
    0 ≤ calculate_sentiment_score db ∧ calculate_sentiment_score db ≤ 1 := by
  unfold calculate_sentiment_score
  dsimp only
  split
  · norm_num
  · split
    · norm_num
    · exact ⟨le_max_left _ _, max_le (by norm_num) (min_le_left _ _)⟩

theorem urgency_score_bounds (db : List AnalyzedRecord) :
    0 ≤ calculate_urgency_score db ∧ calculate_urgency_score db ≤ 1 := by
  unfold calculate_urgency_score
  dsimp only
  split
  · norm_num
  · rename_i hne
    have hlen : 0 < (topUrgent db).length := List.length_pos.mpr hne
    have hts : ((topUrgent db).filter timeSensitiveRec).length ≤ (topUrgent db).length :=
      List.length_filter_le _ _
    have htotal : (0 : ℚ) < ((topUrgent db).length : ℚ) := by exact_mod_cast hlen
    have hshare0 : (0 : ℚ) ≤ (((topUrgent db).filter timeSensitiveRec).length : ℚ) /
        ((topUrgent db).length : ℚ) := by positivity
    have hshare1 : (((topUrgent db).filter timeSensitiveRec).length : ℚ) /
        ((topUrgent db).length : ℚ) ≤ 1 := by
      rw [div_le_one htotal]
      exact_mod_cast hts
    have hnp0 : (0 : ℚ) ≤ (if 1 < maxPriorityScore (topUrgent db) then
        min 1 ((maxPriorityScore (topUrgent db) - 1) / 1) else 0) := by
      split
      · rename_i hgt
        have : (0 : ℚ) ≤ (maxPriorityScore (topUrgent db) - 1) / 1 := by linarith
        exact le_min (by norm_num) this
      · exact le_refl 0
    have hnp1 : (if 1 < maxPriorityScore (topUrgent db) then
        min 1 ((maxPriorityScore (topUrgent db) - 1) / 1) else 0) ≤ 1 := by
      split
      · exact min_le_left _ _
      · norm_num
    rw [if_pos htotal]
    constructor
    · nlinarith
    · nlinarith

theorem roi_potential_bounds (db : List AnalyzedRecord) (t : String) :
    0 ≤ calculate_roi_potential db t ∧ calculate_roi_potential db t ≤ 1 := by
  unfold calculate_roi_potential
  dsimp only
  exact ⟨le_max_left _ _, max_le (by norm_num) (min_le_left _ _)⟩

/-- C2: for every record history, the five component scores of
    calculate_opportunity_score lie in [0, 1] and the weighted combined
    opportunity_score lies in [0, 100]. -/
theorem opportunity_scores_in_range (db : List AnalyzedRecord) :
    (0 ≤ (calculate_opportunity_score db).activity ∧
      (calculate_opportunity_score db).activity ≤ 1) ∧
    (0 ≤ (calculate_opportunity_score db).community_growth ∧
      (calculate_opportunity_score db).community_growth ≤ 1) ∧
    (0 ≤ (calculate_opportunity_score db).sentiment ∧
      (calculate_opportunity_score db).sentiment ≤ 1) ∧
    (0 ≤ (calculate_opportunity_score db).urgency ∧
      (calculate_opportunity_score db).urgency ≤ 1) ∧
    (0 ≤ (calculate_opportunity_score db).roi_potential ∧
      (calculate_opportunity_score db).roi_potential ≤ 1) ∧
    (0 ≤ (calculate_opportunity_score db).opportunity_score ∧
      (calculate_opportunity_score db).opportunity_score ≤ 100) := by
  obtain ⟨ha0, ha1⟩ := activity_score_bounds db 7
  obtain ⟨hg0, hg1⟩ := community_growth_bounds db
  obtain ⟨hs0, hs1⟩ := sentiment_score_bounds db
  obtain ⟨hu0, hu1⟩ := urgency_score_bounds db
  obtain ⟨hr0, hr1⟩ := roi_potential_bounds db (detect_opportunity_type db).1
  have hs0' : (0 : ℝ) ≤ ((calculate_sentiment_score db : ℚ) : ℝ) := by exact_mod_cast hs0
  have hs1' : ((calculate_sentiment_score db : ℚ) : ℝ) ≤ 1 := by exact_mod_cast hs1
  have hu0' : (0 : ℝ) ≤ ((calculate_urgency_score db : ℚ) : ℝ) := by exact_mod_cast hu0
  have hu1' : ((calculate_urgency_score db : ℚ) : ℝ) ≤ 1 := by exact_mod_cast hu1
  unfold calculate_opportunity_score
  dsimp only
  refine ⟨⟨ha0, ha1⟩, ⟨hg0, hg1⟩, ⟨hs0', hs1'⟩, ⟨hu0', hu1'⟩, ⟨hr0, hr1⟩, ?_, ?_⟩
  · nlinarith
  · nlinarith

/-- C3: worth_participating holds exactly when the computed
    opportunity_score is at least 70 (the boundary is inclusive). -/
theorem worth_participating_iff_seventy (db : List AnalyzedRecord) :
    (calculate_opportunity_score db).worth_participating ↔
      (calculate_opportunity_score db).opportunity_score ≥ 70 := Iff.rfl

/-- C1 (code bug): with zero historical records, sentiment and urgency do
    return their neutral defaults, but the activity and growth components do
    not return 0.0: the `if not results` guards never fire because a COUNT(*)
    query always yields one row, so the logistic is applied to a zero count
    and yields 1/(1+e^2) and 1/(1+e^1.5) instead of the documented 0.0. -/
theorem zero_history_component_values :
    calculate_sentiment_score [] = 1/2 ∧
    calculate_urgency_score [] = 0 ∧
    calculate_activity_score [] 7 = 1 / (1 + Real.exp 2) ∧
    calculate_activity_score [] 7 ≠ 0 ∧
    calculate_community_growth [] = 1 / (1 + Real.exp (3/2)) ∧
    calculate_community_growth [] ≠ 0 := by
  refine ⟨rfl, rfl, ?_, ?_, ?_, ?_⟩
  · show (1 : ℝ) / (1 + Real.exp (-(2/5) * (((0 : Nat) : ℝ) - 5))) = 1 / (1 + Real.exp 2)
    norm_num
  · have := sigmoid_pos (-(2/5) * (((0 : Nat) : ℝ) - 5))
    show (1 : ℝ) / (1 + Real.exp (-(2/5) * (((0 : Nat) : ℝ) - 5))) ≠ 0
    exact ne_of_gt this
  · show (1 : ℝ) / (1 + Real.exp (-(3/2) * ((if (0 : Nat) = 0 then ((0 : Nat) : ℝ) else ((0 : Nat) : ℝ) / ((0 : Nat) : ℝ)) - 1))) = 1 / (1 + Real.exp (3/2))
    norm_num
  · have := sigmoid_pos (-(3/2) * ((if (0 : Nat) = 0 then ((0 : Nat) : ℝ) else ((0 : Nat) : ℝ) / ((0 : Nat) : ℝ)) - 1))
    show (1 : ℝ) / (1 + Real.exp (-(3/2) * ((if (0 : Nat) = 0 then ((0 : Nat) : ℝ) else ((0 : Nat) : ℝ) / ((0 : Nat) : ℝ)) - 1))) ≠ 0
    exact ne_of_gt this

-- ### Priority scorer: project multiplier and monotonicity

theorem listMaxQ_tier (ps : List ProjMatch) (hne : ps ≠ []) :
    listMaxQ (ps.map (fun p => if p.priority = some "high_priority" then (3 : ℚ)/2 else 6/5)) =
      if ps.any (fun p => p.priority = some "high_priority") then (3 : ℚ)/2 else 6/5 := by
  induction ps with
  | nil => exact absurd rfl hne
  | cons p t ih =>
    cases t with
    | nil =>
      simp only [List.map_cons, List.map_nil, listMaxQ, List.any_cons, List.any_nil,
        Bool.or_false]
      by_cases hp : p.priority = some "high_priority"
      · simp [hp]
      · simp [hp]
    | cons q t' =>
      have ih' := ih (by simp)
      simp only [List.map_cons, listMaxQ] at ih' ⊢
      rw [ih']
      by_cases hp : p.priority = some "high_priority"
      · by_cases hq : (q :: t').any (fun p => p.priority = some "high_priority") = true
        · simp only [List.any_cons] at hq
          simp [hp, hq, max_self]
        · simp only [List.any_cons] at hq
          simp only [hp, if_pos, List.any_cons]
          simp [hq, max_eq_left (by norm_num : (6:ℚ)/5 ≤ 3/2)]
      · by_cases hq : (q :: t').any (fun p => p.priority = some "high_priority") = true
        · simp only [List.any_cons] at hq
          simp [hp, hq, max_eq_right (by norm_num : (6:ℚ)/5 ≤ 3/2)]
        · simp only [List.any_cons] at hq
          simp [hp, hq, max_self]

theorem any_high_imp_any_some (ps : List ProjMatch)
    (h : ps.any (fun p => p.priority = some "high_priority") = true) :
    ps.any (fun p => p.priority.isSome) = true := by
  simp only [List.any_eq_true, decide_eq_true_eq] at h ⊢
  obtain ⟨p, hp, hph⟩ := h
  exact ⟨p, hp, by simp [hph]⟩

/-- Counterexample to C4: a classification whose only matched project came
    from the channel branch (no priority key) gets project multiplier 1.0,
    not the 1.2 the claim assigns to any matched project. -/
theorem channel_only_multiplier_counterexample :
    analysisChannelOnly.projects ≠ [] ∧
    calculate_priority_score analysisChannelOnly = 1 ∧ ¬ ((1 : ℚ) = 6/5) := by
  refine ⟨by simp [analysisChannelOnly], ?_, by norm_num⟩
  simp [calculate_priority_score, analysisChannelOnly, project_multiplier]

/-- C4 amended: with a non-empty matched-projects list the project multiplier
    is 1.5 when some matched project is high tier, 1.2 when some matched
    project carries a priority tier at all (keyword, symbol or contract
    matches), and 1.0 when none does — in particular a project matched only
    via its channel contributes no multiplier. -/
theorem priority_project_multiplier_amended (a : Analysis) (h : a.projects ≠ []) :
    calculate_priority_score a =
      (if a.projects.any (fun p => p.priority = some "high_priority") then (3 : ℚ)/2
       else if a.projects.any (fun p => p.priority.isSome) then (6 : ℚ)/5 else 1) *
      ((if "high_impact" ∈ a.context then (13 : ℚ)/10 else 1) *
       (if "time_sensitive" ∈ a.context then (7 : ℚ)/5 else 1) *
       (if "alpha" ∈ a.context then (6 : ℚ)/5 else 1) *
       (if "risk" ∈ a.context then (3 : ℚ)/2 else 1) *
       (if "opportunity" ∈ a.context then (5 : ℚ)/4 else 1) *
       (if "urgent_action" ∈ a.categories then (3 : ℚ)/2 else 1) *
       (if "active_investment" ∈ a.categories then (13 : ℚ)/10 else 1) *
       (if "project_launch" ∈ a.categories then (5 : ℚ)/4 else 1) *
       (if "upcoming_opportunity" ∈ a.categories then (27 : ℚ)/20 else 1) *
       a.source_weight) := by
  unfold calculate_priority_score project_multiplier
  rw [if_pos h]
  by_cases hs : a.projects.any (fun p => p.priority.isSome) = true
  · rw [if_pos hs, listMaxQ_tier a.projects h]
    by_cases hh : a.projects.any (fun p => p.priority = some "high_priority") = true
    · rw [if_pos hh, if_pos hh]
      ring
    · rw [if_neg hh, if_neg hh, if_pos hs]
      ring
  · have hh : ¬ (a.projects.any (fun p => p.priority = some "high_priority") = true) := by
      intro hcon
      exact hs (any_high_imp_any_some _ hcon)
    rw [if_neg hs, if_neg hh, if_neg hs]
    ring

/-- Witness for the amended C4 theorem at a concrete classification. -/
theorem priority_project_multiplier_amended_witness :
    analysisKwHigh.projects ≠ [] ∧
    calculate_priority_score analysisKwHigh =
      (if analysisKwHigh.projects.any (fun p => p.priority = some "high_priority") then (3 : ℚ)/2
       else if analysisKwHigh.projects.any (fun p => p.priority.isSome) then (6 : ℚ)/5 else 1) *
      ((if "high_impact" ∈ analysisKwHigh.context then (13 : ℚ)/10 else 1) *
       (if "time_sensitive" ∈ analysisKwHigh.context then (7 : ℚ)/5 else 1) *
       (if "alpha" ∈ analysisKwHigh.context then (6 : ℚ)/5 else 1) *
       (if "risk" ∈ analysisKwHigh.context then (3 : ℚ)/2 else 1) *
       (if "opportunity" ∈ analysisKwHigh.context then (5 : ℚ)/4 else 1) *
       (if "urgent_action" ∈ analysisKwHigh.categories then (3 : ℚ)/2 else 1) *
       (if "active_investment" ∈ analysisKwHigh.categories then (13 : ℚ)/10 else 1) *
       (if "project_launch" ∈ analysisKwHigh.categories then (5 : ℚ)/4 else 1) *
       (if "upcoming_opportunity" ∈ analysisKwHigh.categories then (27 : ℚ)/20 else 1) *
       analysisKwHigh.source_weight) :=
  ⟨by simp [analysisKwHigh],
   priority_project_multiplier_amended analysisKwHigh (by simp [analysisKwHigh])⟩

theorem if_one_pos {P : Prop} [Decidable P] {v : ℚ} (hv : 0 < v) :
    0 < if P then v else 1 := by
  split
  · exact hv
  · norm_num

theorem if_one_mono {P Q : Prop} [Decidable P] [Decidable Q] {v : ℚ} (hv : 1 ≤ v)
    (hpq : P → Q) : (if P then v else 1) ≤ (if Q then v else 1) := by
  split
  · rename_i hp
    rw [if_pos (hpq hp)]
  · split
    · exact hv
    · exact le_refl 1

theorem project_multiplier_pos (ps : List ProjMatch) : 0 < project_multiplier ps := by
  unfold project_multiplier
  split
  · rename_i hs
    have hne : ps ≠ [] := by
      intro h0
      subst h0
      simp at hs
    rw [listMaxQ_tier ps hne]
    split <;> norm_num
  · norm_num

/-- C8: with a strictly positive source weight the priority score is strictly
    positive, and with projects and weight fixed, enlarging the matched
    context-indicator and category sets never decreases the score. -/
theorem priority_score_positive_and_monotone (a b : Analysis) :
    (0 < a.source_weight → 0 < calculate_priority_score a) ∧
    (a.projects = b.projects → a.source_weight = b.source_weight →
      0 ≤ a.source_weight → a.context ⊆ b.context → a.categories ⊆ b.categories →
      calculate_priority_score a ≤ calculate_priority_score b) := by
  constructor
  · intro hw
    unfold calculate_priority_score
    have hp : 0 < (if a.projects ≠ [] then project_multiplier a.projects else 1) := by
      split
      · exact project_multiplier_pos _
      · norm_num
    exact mul_pos (mul_pos (mul_pos (mul_pos (mul_pos (mul_pos (mul_pos (mul_pos (mul_pos
      (mul_pos hp (if_one_pos (by norm_num))) (if_one_pos (by norm_num)))
      (if_one_pos (by norm_num))) (if_one_pos (by norm_num))) (if_one_pos (by norm_num)))
      (if_one_pos (by norm_num))) (if_one_pos (by norm_num))) (if_one_pos (by norm_num)))
      (if_one_pos (by norm_num))) hw
  · intro hpr hw hw0 hctx hcat
    unfold calculate_priority_score
    rw [hpr, hw]
    have hbw : (0 : ℚ) ≤ b.source_weight := hw ▸ hw0
    have hbp : (0 : ℚ) ≤ (if b.projects ≠ [] then project_multiplier b.projects else 1) := by
      split
      · exact le_of_lt (project_multiplier_pos _)
      · norm_num
    gcongr <;>
      first
        | exact hbw
        | exact hbp
        | exact if_one_mono (by norm_num) (fun hx => hctx hx)
        | exact if_one_mono (by norm_num) (fun hx => hcat hx)
        | exact le_of_lt (if_one_pos (by norm_num))
        | exact le_refl _
        | (repeat' apply mul_nonneg) <;>
            first
              | exact hbw
              | exact hbp
              | exact le_of_lt (if_one_pos (by norm_num))

/-- Witness for the C8 theorem at two concrete classifications. -/
theorem priority_score_positive_and_monotone_witness :
    (0 < analysisBare.source_weight ∧ 0 < calculate_priority_score analysisBare) ∧
    (analysisBare.projects = analysisMore.projects ∧
      analysisBare.source_weight = analysisMore.source_weight ∧
      0 ≤ analysisBare.source_weight ∧
      analysisBare.context ⊆ analysisMore.context ∧
      analysisBare.categories ⊆ analysisMore.categories ∧
      calculate_priority_score analysisBare ≤ calculate_priority_score analysisMore) := by
  have h1 : (0 : ℚ) < analysisBare.source_weight := by norm_num [analysisBare]
  have h2 : analysisBare.projects = analysisMore.projects := rfl
  have h3 : analysisBare.source_weight = analysisMore.source_weight := rfl
  have h4 : (0 : ℚ) ≤ analysisBare.source_weight := by norm_num [analysisBare]
  have h5 : analysisBare.context ⊆ analysisMore.context := by
    simp [analysisBare, analysisMore]
  have h6 : analysisBare.categories ⊆ analysisMore.categories := by
    simp [analysisBare, analysisMore]
  exact ⟨⟨h1, (priority_score_positive_and_monotone analysisBare analysisMore).1 h1⟩,
    h2, h3, h4, h5, h6,
    (priority_score_positive_and_monotone analysisBare analysisMore).2 h2 h3 h4 h5 h6⟩

-- ### Urgency: the top-10 window determines the score

theorem mem_insertDesc {a x : AnalyzedRecord} {l : List AnalyzedRecord} :
    a ∈ insertDesc x l ↔ a = x ∨ a ∈ l := by
  induction l with
  | nil => simp [insertDesc]
  | cons y ys ih =>
    simp only [insertDesc]
    split <;> simp only [List.mem_cons, ih] <;> tauto

theorem length_insertDesc (x : AnalyzedRecord) (l : List AnalyzedRecord) :
    (insertDesc x l).length = l.length + 1 := by
  induction l with
  | nil => rfl
  | cons y ys ih =>
    simp only [insertDesc]
    split
    · rfl
    · simp [ih]

theorem length_sortDesc (l : List AnalyzedRecord) : (sortDesc l).length = l.length := by
  induction l with
  | nil => rfl
  | cons x xs ih => simp [sortDesc, length_insertDesc, ih]

theorem mem_sortDesc {a : AnalyzedRecord} {l : List AnalyzedRecord} :
    a ∈ sortDesc l ↔ a ∈ l := by
  induction l with
  | nil => simp [sortDesc]
  | cons x xs ih => simp [sortDesc, mem_insertDesc, ih]

theorem insertDesc_append_low (y x : AnalyzedRecord) (u v : List AnalyzedRecord)
    (hy : x.priority_score < y.priority_score)
    (hv : ∀ r ∈ v, r.priority_score ≤ x.priority_score) :
    insertDesc y (u ++ v) = insertDesc y u ++ v := by
  induction u with
  | nil =>
    cases v with
    | nil => rfl
    | cons h t =>
      have hc := lt_of_le_of_lt (hv h (by simp)) hy
      simp [insertDesc, hc]
  | cons a u' ih =>
    by_cases hc : a.priority_score < y.priority_score
    · simp [insertDesc, hc]
    · simp [insertDesc, hc, ih]

theorem insertDesc_append_high (y x : AnalyzedRecord) (u v : List AnalyzedRecord)
    (hy : y.priority_score ≤ x.priority_score)
    (hu : ∀ r ∈ u, x.priority_score < r.priority_score) :
    insertDesc y (u ++ v) = u ++ insertDesc y v := by
  induction u with
  | nil => rfl
  | cons a u' ih =>
    have hna : ¬ (a.priority_score < y.priority_score) := by
      have h2 := hu a (by simp)
      push_neg
      linarith
    simp [insertDesc, hna, ih (fun r hr => hu r (by simp [hr]))]

theorem sortDesc_filter_split (x : AnalyzedRecord) (l : List AnalyzedRecord) :
    sortDesc l =
      sortDesc (l.filter (fun r => decide (x.priority_score < r.priority_score))) ++
      sortDesc (l.filter (fun r => !decide (x.priority_score < r.priority_score))) := by
  induction l with
  | nil => rfl
  | cons a l' ih =>
    have hvL : ∀ r ∈ sortDesc (l'.filter (fun r => !decide (x.priority_score < r.priority_score))),
        r.priority_score ≤ x.priority_score := by
      intro r hr
      rw [mem_sortDesc] at hr
      have h2 := List.of_mem_filter hr
      simp only [Bool.not_eq_true', decide_eq_false_iff_not, not_lt] at h2
      exact h2
    have huG : ∀ r ∈ sortDesc (l'.filter (fun r => decide (x.priority_score < r.priority_score))),
        x.priority_score < r.priority_score := by
      intro r hr
      rw [mem_sortDesc] at hr
      have h2 := List.of_mem_filter hr
      simp only [decide_eq_true_eq] at h2
      exact h2
    by_cases ha : x.priority_score < a.priority_score
    · rw [show List.filter (fun r => decide (x.priority_score < r.priority_score)) (a :: l')
          = a :: List.filter (fun r => decide (x.priority_score < r.priority_score)) l' from by
            rw [List.filter_cons]
            simp [ha]]
      rw [show List.filter (fun r => !decide (x.priority_score < r.priority_score)) (a :: l')
          = List.filter (fun r => !decide (x.priority_score < r.priority_score)) l' from by
            rw [List.filter_cons]
            simp [ha]]
      show insertDesc a (sortDesc l') = _
      rw [ih, insertDesc_append_low a x _ _ ha hvL]
      rfl
    · rw [show List.filter (fun r => decide (x.priority_score < r.priority_score)) (a :: l')
          = List.filter (fun r => decide (x.priority_score < r.priority_score)) l' from by
            rw [List.filter_cons]
            simp [ha]]
      rw [show List.filter (fun r => !decide (x.priority_score < r.priority_score)) (a :: l')
          = a :: List.filter (fun r => !decide (x.priority_score < r.priority_score)) l' from by
            rw [List.filter_cons]
            simp [ha]]
      show insertDesc a (sortDesc l') = _
      rw [ih, insertDesc_append_high a x _ _ (not_lt.mp ha) huG]
      rfl

theorem sortDesc_append_pivot (x : AnalyzedRecord) (l : List AnalyzedRecord) :
    sortDesc (l ++ [x]) =
      sortDesc (l.filter (fun r => decide (x.priority_score < r.priority_score))) ++
      x :: sortDesc (l.filter (fun r => !decide (x.priority_score < r.priority_score))) := by
  induction l with
  | nil => rfl
  | cons a l' ih =>
    have hvL : ∀ r ∈ sortDesc (l'.filter (fun r => !decide (x.priority_score < r.priority_score))),
        r.priority_score ≤ x.priority_score := by
      intro r hr
      rw [mem_sortDesc] at hr
      have h2 := List.of_mem_filter hr
      simp only [Bool.not_eq_true', decide_eq_false_iff_not, not_lt] at h2
      exact h2
    have huG : ∀ r ∈ sortDesc (l'.filter (fun r => decide (x.priority_score < r.priority_score))),
        x.priority_score < r.priority_score := by
      intro r hr
      rw [mem_sortDesc] at hr
      have h2 := List.of_mem_filter hr
      simp only [decide_eq_true_eq] at h2
      exact h2
    by_cases ha : x.priority_score < a.priority_score
    · rw [show List.filter (fun r => decide (x.priority_score < r.priority_score)) (a :: l')
          = a :: List.filter (fun r => decide (x.priority_score < r.priority_score)) l' from by
            rw [List.filter_cons]
            simp [ha]]
      rw [show List.filter (fun r => !decide (x.priority_score < r.priority_score)) (a :: l')
          = List.filter (fun r => !decide (x.priority_score < r.priority_score)) l' from by
            rw [List.filter_cons]
            simp [ha]]
      show insertDesc a (sortDesc (l' ++ [x])) = _
      rw [ih, insertDesc_append_low a x _ _ ha ?hv]
      case hv =>
        intro r hr
        simp only [List.mem_cons] at hr
        rcases hr with rfl | hr
        · exact le_refl _
        · exact hvL r hr
      rfl
    · rw [show List.filter (fun r => decide (x.priority_score < r.priority_score)) (a :: l')
          = List.filter (fun r => decide (x.priority_score < r.priority_score)) l' from by
            rw [List.filter_cons]
            simp [ha]]
      rw [show List.filter (fun r => !decide (x.priority_score < r.priority_score)) (a :: l')
          = a :: List.filter (fun r => !decide (x.priority_score < r.priority_score)) l' from by
            rw [List.filter_cons]
            simp [ha]]
      show insertDesc a (sortDesc (l' ++ [x])) = _
      rw [ih, insertDesc_append_high a x _ _ (not_lt.mp ha) huG]
      rw [show insertDesc a (x :: sortDesc (l'.filter
            (fun r => !decide (x.priority_score < r.priority_score))))
          = x :: insertDesc a (sortDesc (l'.filter
            (fun r => !decide (x.priority_score < r.priority_score)))) from by
        simp only [insertDesc]
        rw [if_neg ha]]
      rfl

/-- C10: the urgency score is a function of the at most ten highest-priority
    qualifying rows: appending a further qualifying row whose priority lies
    strictly below at least ten already-qualifying rows leaves the score
    unchanged. -/
theorem urgency_depends_on_top_ten (db : List AnalyzedRecord) (x : AnalyzedRecord)
    (hq : urgencyQualifies x = true)
    (h10 : 10 ≤ ((db.filter urgencyQualifies).filter
      (fun r => decide (x.priority_score < r.priority_score))).length) :
    calculate_urgency_score (db ++ [x]) = calculate_urgency_score db := by
  have hfil : (db ++ [x]).filter urgencyQualifies = db.filter urgencyQualifies ++ [x] := by
    rw [List.filter_append]
    simp [hq]
  have hGlen : (sortDesc ((db.filter urgencyQualifies).filter
      (fun r => decide (x.priority_score < r.priority_score)))).length =
      ((db.filter urgencyQualifies).filter
      (fun r => decide (x.priority_score < r.priority_score))).length := length_sortDesc _
  have htop : topUrgent (db ++ [x]) = topUrgent db := by
    unfold topUrgent
    rw [hfil, sortDesc_append_pivot x (db.filter urgencyQualifies)]
    conv_rhs => rw [sortDesc_filter_split x (db.filter urgencyQualifies)]
    rw [List.take_append_of_le_length (by omega), List.take_append_of_le_length (by omega)]
  unfold calculate_urgency_score
  rw [htop]

/-- Witness for the C10 theorem: ten qualifying rows of priority 2 plus one
    qualifying row of priority 1.5. -/
theorem urgency_depends_on_top_ten_witness :
    urgencyQualifies recLow = true ∧
    10 ≤ ((dbTen.filter urgencyQualifies).filter
      (fun r => decide (recLow.priority_score < r.priority_score))).length ∧
    calculate_urgency_score (dbTen ++ [recLow]) = calculate_urgency_score dbTen := by
  have h1 : urgencyQualifies recLow = true := by
    norm_num [urgencyQualifies, recLow]
  have h2 : 10 ≤ ((dbTen.filter urgencyQualifies).filter
      (fun r => decide (recLow.priority_score < r.priority_score))).length := by
    norm_num [dbTen, urgencyQualifies, recTwo, recLow, List.filter_cons]
  exact ⟨h1, h2, urgency_depends_on_top_ten dbTen recLow h1 h2⟩

-- ### New-project discovery: confidence formula

theorem mem_dedupCandidates {c : Candidate} {l : List Candidate}
    (h : c ∈ dedupCandidates l) : c ∈ l := by
  have aux : ∀ (m : List Candidate) (acc : List Candidate),
      c ∈ m.foldl (fun acc p =>
        if acc.any (fun q => lowerL q.name = lowerL p.name) then acc else acc ++ [p]) acc →
      c ∈ acc ∨ c ∈ m := by
    intro m
    induction m with
    | nil =>
      intro acc h2
      exact Or.inl h2
    | cons p t ih =>
      intro acc h2
      simp only [List.foldl_cons] at h2
      rcases ih _ h2 with hacc | ht
      · by_cases hc : acc.any (fun q => lowerL q.name = lowerL p.name) = true
        · rw [if_pos hc] at hacc
          exact Or.inl hacc
        · rw [if_neg hc] at hacc
          rcases List.mem_append.mp hacc with h3 | h3
          · exact Or.inl h3
          · simp only [List.mem_singleton] at h3
            subst h3
            exact Or.inr (by simp)
      · exact Or.inr (by simp [ht])
  rcases aux l [] h with h2 | h2
  · simp at h2
  · exact h2

/-- C7 amended: every discovered candidate's confidence is base 0.6, plus
    min(0.2, 0.05 × total mention count) when the name occurs more than once
    (the 0.05 steps count every mention, not only the mentions beyond the
    first), plus min(0.2, 0.04 × number of signal words present in the text). -/
theorem discovery_confidence_formula (cfg : ClassifierConfig) (text : List Char)
    (c : Candidate) (hc : c ∈ detect_new_projects cfg text) :
    c.confidence = 3/5 +
      (if 1 < mentionCount text c.name
        then min (1/5) ((mentionCount text c.name : ℚ) * (1/20)) else 0) +
      min (1/5) ((nearbyCount text : ℚ) * (1/25)) := by
  have h1 := mem_dedupCandidates hc
  simp only [List.mem_map] at h1
  obtain ⟨m, hm, hcm⟩ := h1
  subst hcm
  simp only [discovery_confidence]
  split
  · ring
  · ring

/-- Counterexample to C7: for the text "newcoin is launching newcoin" the
    name is mentioned twice and one signal word is present; the code computes
    0.6 + min(0.2, 2×0.05) + 0.04 = 0.74, while the claimed
    0.6 + min(0.2, 0.05×extra_mentions) + 0.04 would give 0.69. -/
theorem discovery_repetition_counterexample :
    (detect_new_projects cfgEmpty textNewcoin).map (fun c => c.confidence) = [37/50] ∧
    mentionCount textNewcoin ("newcoin".data) = 2 ∧
    nearbyCount textNewcoin = 1 ∧
    3/5 + min (1/5) (((2 : ℚ) - 1) * (1/20)) + min (1/5) ((1 : ℚ) * (1/25)) = 69/100 ∧
    ¬ ((37 : ℚ)/50 = 69/100) := by
  have e1 : scanA ("new project".data) textNewcoin = [] := by
    simp [textNewcoin, scanA, ciMatch, isWordCh, isSepCh, pyWS, lowerChar, Char.toLower,
      List.dropWhile_cons, List.takeWhile_cons]
  have e2 : scanA ("upcoming project".data) textNewcoin = [] := by
    simp [textNewcoin, scanA, ciMatch, isWordCh, isSepCh, pyWS, lowerChar, Char.toLower,
      List.dropWhile_cons, List.takeWhile_cons]
  have e3 : scanB (" is launching".data) textNewcoin = ["newcoin".data] := by
    simp [textNewcoin, scanB, ciMatch, isWordCh, lowerChar, Char.toLower]
  have e4 : scanB (" token launch".data) textNewcoin = [] := by
    simp [textNewcoin, scanB, ciMatch, isWordCh, lowerChar, Char.toLower]
  have e5 : scanB (" airdrop".data) textNewcoin = [] := by
    simp [textNewcoin, scanB, ciMatch, isWordCh, lowerChar, Char.toLower]
  have e6 : scanC textNewcoin = [] := by
    simp [textNewcoin, scanC, ciMatch, isAlphaCh, lowerChar, Char.toLower, launchLit]
  have emc : mentionCount textNewcoin ("newcoin".data) = 2 := by
    simp [mentionCount, textNewcoin, countOcc, lowerL, lowerChar, Char.toLower]
  have enc : nearbyCount textNewcoin = 1 := by
    simp [nearbyCount, nearby_keywords, textNewcoin, containsSub, lowerL, lowerChar,
      Char.toLower, List.filter_cons]
  refine ⟨?_, emc, enc, by norm_num, by norm_num⟩
  simp [detect_new_projects, discovery_patterns, e1, e2, e3, e4, e5, e6,
    dedupCandidates, isTracked, cfgEmpty, discovery_confidence, emc, enc]
  norm_num

/-- Witness for the amended C7 theorem at a concrete discovered candidate. -/
theorem discovery_confidence_formula_witness :
    (⟨"blarg".data, 16/25, "discovery"⟩ : Candidate) ∈
      detect_new_projects cfgEmpty textUpcoming ∧
    (⟨"blarg".data, (16 : ℚ)/25, "discovery"⟩ : Candidate).confidence = 3/5 +
      (if 1 < mentionCount textUpcoming (⟨"blarg".data, (16 : ℚ)/25, "discovery"⟩ : Candidate).name
        then min (1/5) ((mentionCount textUpcoming
          (⟨"blarg".data, (16 : ℚ)/25, "discovery"⟩ : Candidate).name : ℚ) * (1/20)) else 0) +
      min (1/5) ((nearbyCount textUpcoming : ℚ) * (1/25)) := by
  have e1 : scanA ("new project".data) textUpcoming = [] := by
    simp [textUpcoming, scanA, ciMatch, isWordCh, isSepCh, pyWS, lowerChar, Char.toLower,
      List.dropWhile_cons, List.takeWhile_cons]
  have e2 : scanA ("upcoming project".data) textUpcoming = ["blarg".data] := by
    simp [textUpcoming, scanA, ciMatch, isWordCh, isSepCh, pyWS, lowerChar, Char.toLower,
      List.dropWhile_cons, List.takeWhile_cons]
  have e3 : scanB (" is launching".data) textUpcoming = [] := by
    simp [textUpcoming, scanB, ciMatch, isWordCh, lowerChar, Char.toLower]
  have e4 : scanB (" token launch".data) textUpcoming = [] := by
    simp [textUpcoming, scanB, ciMatch, isWordCh, lowerChar, Char.toLower]
  have e5 : scanB (" airdrop".data) textUpcoming = [] := by
    simp [textUpcoming, scanB, ciMatch, isWordCh, lowerChar, Char.toLower]
  have e6 : scanC textUpcoming = [] := by
    simp [textUpcoming, scanC, ciMatch, isAlphaCh, lowerChar, Char.toLower, launchLit]
  have emc : mentionCount textUpcoming ("blarg".data) = 1 := by
    simp [mentionCount, textUpcoming, countOcc, lowerL, lowerChar, Char.toLower]
  have enc : nearbyCount textUpcoming = 1 := by
    simp [nearbyCount, nearby_keywords, textUpcoming, containsSub, lowerL, lowerChar,
      Char.toLower, List.filter_cons]
  have hmem : (⟨"blarg".data, 16/25, "discovery"⟩ : Candidate) ∈
      detect_new_projects cfgEmpty textUpcoming := by
    have : detect_new_projects cfgEmpty textUpcoming =
        [⟨"blarg".data, 16/25, "discovery"⟩] := by
      simp [detect_new_projects, discovery_patterns, e1, e2, e3, e4, e5, e6,
        dedupCandidates, isTracked, cfgEmpty, discovery_confidence, emc, enc]
      norm_num
    rw [this]
    simp
  exact ⟨hmem, discovery_confidence_formula cfgEmpty textUpcoming _ hmem⟩

-- ### New-project discovery: single-capture confidence

theorem ciMatch_isPref {lit l : List Char} (h : ciMatch lit l = true) :
    lit <+: lowerL l := by
  induction lit generalizing l with
  | nil => exact List.nil_prefix
  | cons a as ih =>
    cases l with
    | nil => simp [ciMatch] at h
    | cons b bs =>
      simp only [ciMatch, Bool.and_eq_true, decide_eq_true_eq] at h
      obtain ⟨h1, h2⟩ := h
      have h3 : lowerL (b :: bs) = lowerChar b :: lowerL bs := rfl
      rw [h3, ← h1]
      exact List.cons_prefix_cons.mpr ⟨rfl, ih h2⟩

theorem containsSub_iff_inf (n h : List Char) : containsSub n h = true ↔ n <:+: h := by
  unfold containsSub
  rw [List.any_eq_true]
  constructor
  · rintro ⟨t, ht, hp⟩
    rw [List.mem_tails] at ht
    rw [List.isPrefixOf_iff_prefix] at hp
    exact List.infix_iff_prefix_suffix.mpr ⟨t, hp, ht⟩
  · intro hinf
    obtain ⟨t, hp, ht⟩ := List.infix_iff_prefix_suffix.mp hinf
    exact ⟨t, (List.mem_tails _ _).mpr ht, List.isPrefixOf_iff_prefix.mpr hp⟩

theorem lowerL_suffix {l m : List Char} (h : l <:+ m) : lowerL l <:+ lowerL m :=
  List.IsSuffix.map lowerChar h

theorem scanA_inf (lit : List Char) (l : List Char) :
    scanA lit l ≠ [] → lit <:+: lowerL l := by
  induction l using scanA.induct lit with
  | case1 =>
    intro h
    exact absurd (by simp [scanA]) h
  | case2 c cs hci hcond ih =>
    intro _
    exact (ciMatch_isPref hci).isInfix
  | case3 c cs hci hcond ih =>
    intro h
    have hrec : scanA lit (c :: cs) = scanA lit cs := by
      rw [scanA]
      simp only [if_pos hci]
      rw [dif_neg hcond]
    have h3 := ih (by rw [← hrec]; exact h)
    exact h3.trans ((List.suffix_cons (lowerChar c) (lowerL cs)).isInfix)
  | case4 c cs hci ih =>
    intro h
    have hrec : scanA lit (c :: cs) = scanA lit cs := by
      rw [scanA]
      simp only [if_neg hci]
    have h3 := ih (by rw [← hrec]; exact h)
    exact h3.trans ((List.suffix_cons (lowerChar c) (lowerL cs)).isInfix)

theorem scanB_inf (lit : List Char) (l : List Char) :
    scanB lit l ≠ [] → lit <:+: lowerL l := by
  induction l using scanB.induct lit with
  | case1 =>
    intro h
    exact absurd (by simp [scanB]) h
  | case2 c cs hw hci ih =>
    intro _
    have hp := ciMatch_isPref hci
    have hsuf : lowerL (List.drop (List.takeWhile isWordCh (c :: cs)).length (c :: cs))
        <:+ lowerL (c :: cs) := lowerL_suffix (List.drop_suffix _ _)
    exact List.infix_iff_prefix_suffix.mpr ⟨_, hp, hsuf⟩
  | case3 c cs hw hci ih =>
    intro h
    have hrec : scanB lit (c :: cs) = scanB lit cs := by
      rw [scanB]
      simp only [dif_pos hw, if_neg hci]
    have h3 := ih (by rw [← hrec]; exact h)
    exact h3.trans ((List.suffix_cons (lowerChar c) (lowerL cs)).isInfix)
  | case4 c cs hw ih =>
    intro h
    have hrec : scanB lit (c :: cs) = scanB lit cs := by
      rw [scanB]
      simp only [dif_neg hw]
    have h3 := ih (by rw [← hrec]; exact h)
    exact h3.trans ((List.suffix_cons (lowerChar c) (lowerL cs)).isInfix)

theorem scanC_inf (l : List Char) :
    scanC l ≠ [] → launchLit <:+: lowerL l := by
  induction l using scanC.induct with
  | case1 =>
    intro h
    exact absurd (by simp [scanC]) h
  | case2 cs hcond ih =>
    intro _
    have hp := ciMatch_isPref hcond.2
    have hsuf : lowerL (List.drop (List.takeWhile isAlphaCh cs).length cs)
        <:+ lowerL ('$' :: cs) :=
      lowerL_suffix ((List.drop_suffix _ cs).trans (List.suffix_cons '$' cs))
    exact List.infix_iff_prefix_suffix.mpr ⟨_, hp, hsuf⟩
  | case3 cs hcond ih =>
    intro h
    have hrec : scanC ('$' :: cs) = scanC cs := by
      simp [scanC, hcond]
    have h3 := ih (by rw [← hrec]; exact h)
    exact h3.trans ((List.suffix_cons (lowerChar '$') (lowerL cs)).isInfix)
  | case4 c cs hd ih =>
    intro h
    have hrec : scanC (c :: cs) = scanC cs := by
      simp [scanC, hd]
    have h3 := ih (by rw [← hrec]; exact h)
    exact h3.trans ((List.suffix_cons (lowerChar c) (lowerL cs)).isInfix)

theorem one_le_nearbyCount_of_infix (text k : List Char) (hk : k ∈ nearby_keywords)
    (hinf : k <:+: lowerL text) : 1 ≤ nearbyCount text := by
  have hmem : k ∈ nearby_keywords.filter (fun k => containsSub k (lowerL text)) :=
    List.mem_filter.mpr ⟨hk, (containsSub_iff_inf _ _).mpr hinf⟩
  exact List.length_pos.mpr (List.ne_nil_of_mem hmem)

theorem nearbyCount_le_five (text : List Char) : nearbyCount text ≤ 5 := by
  have h := List.length_filter_le (fun k => containsSub k (lowerL text)) nearby_keywords
  simpa [nearby_keywords] using h

/-- C6 amended: when exactly one discovery pattern captures exactly one novel
    name and the name occurs exactly once in the text, the candidate
    confidence is exactly 0.6 + 0.04 × (number of signal words present in the
    text); at least one signal word is always present because every discovery
    trigger phrase contains one, so the confidence is at least 0.64 and never
    exactly 0.6. -/
theorem single_capture_discovery_confidence (cfg : ClassifierConfig) (text : List Char)
    (nm : List Char)
    (hjoin : (discovery_patterns.map (fun pat => pat text)).flatten = [nm])
    (huntracked : isTracked cfg nm = false)
    (hsingle : mentionCount text nm = 1) :
    detect_new_projects cfg text =
      [{ name := nm, confidence := 3/5 + (nearbyCount text : ℚ) * (1/25),
         source := "discovery" }] ∧
    1 ≤ nearbyCount text := by
  have hflat : scanA ("new project".data) text ++ (scanA ("upcoming project".data) text ++
      (scanB (" is launching".data) text ++ (scanB (" token launch".data) text ++
      (scanB (" airdrop".data) text ++ (scanC text ++ []))))) = [nm] := by
    simpa [discovery_patterns] using hjoin
  have hnear : 1 ≤ nearbyCount text := by
    by_cases h1 : scanA ("new project".data) text = []
    · by_cases h2 : scanA ("upcoming project".data) text = []
      · by_cases h3 : scanB (" is launching".data) text = []
        · by_cases h4 : scanB (" token launch".data) text = []
          · by_cases h5 : scanB (" airdrop".data) text = []
            · have h6ne : scanC text ≠ [] := by
                intro h6e
                rw [h1, h2, h3, h4, h5, h6e] at hflat
                simp at hflat
              have hsub : ("launch".data) <:+: launchLit := ⟨[' '], [], rfl⟩
              exact one_le_nearbyCount_of_infix text _ (by simp [nearby_keywords])
                (hsub.trans (scanC_inf text h6ne))
            · have hsub : ("airdrop".data) <:+: (" airdrop".data) := ⟨[' '], [], rfl⟩
              exact one_le_nearbyCount_of_infix text _ (by simp [nearby_keywords])
                (hsub.trans (scanB_inf (" airdrop".data) text h5))
          · have hsub : ("token".data) <:+: (" token launch".data) :=
              ⟨[' '], " launch".data, rfl⟩
            exact one_le_nearbyCount_of_infix text _ (by simp [nearby_keywords])
              (hsub.trans (scanB_inf (" token launch".data) text h4))
        · have hsub : ("launch".data) <:+: (" is launching".data) :=
            ⟨" is ".data, "ing".data, rfl⟩
          exact one_le_nearbyCount_of_infix text _ (by simp [nearby_keywords])
            (hsub.trans (scanB_inf (" is launching".data) text h3))
      · have hsub : ("project".data) <:+: ("upcoming project".data) :=
          ⟨"upcoming ".data, [], rfl⟩
        exact one_le_nearbyCount_of_infix text _ (by simp [nearby_keywords])
          (hsub.trans (scanA_inf ("upcoming project".data) text h2))
    · have hsub : ("project".data) <:+: ("new project".data) := ⟨"new ".data, [], rfl⟩
      exact one_le_nearbyCount_of_infix text _ (by simp [nearby_keywords])
        (hsub.trans (scanA_inf ("new project".data) text h1))
  have hconf : discovery_confidence text nm = 3/5 + (nearbyCount text : ℚ) * (1/25) := by
    unfold discovery_confidence
    have hle : (nearbyCount text : ℚ) * (1/25) ≤ 1/5 := by
      have h5 := nearbyCount_le_five text
      have h5q : (nearbyCount text : ℚ) ≤ 5 := by exact_mod_cast h5
      linarith
    have hnot : ¬ 1 < mentionCount text nm := by
      rw [hsingle]
      norm_num
    dsimp only
    rw [if_neg hnot, min_eq_right hle]
  have hmain : detect_new_projects cfg text =
      [{ name := nm, confidence := discovery_confidence text nm, source := "discovery" }] := by
    unfold detect_new_projects
    rw [hjoin]
    simp [huntracked, dedupCandidates]
  exact ⟨by rw [hmain, hconf], hnear⟩

/-- Counterexample to C6: the text "new project: zorgon" has a single
    unembellished novel mention matched only by the first discovery pattern,
    and the computed confidence is 0.64, not 0.6, because the trigger phrase
    "new project" itself contains the signal word "project". -/
theorem single_mention_confidence_counterexample :
    (discovery_patterns.map (fun pat => pat textNewProject)).flatten = ["zorgon".data] ∧
    mentionCount textNewProject ("zorgon".data) = 1 ∧
    (detect_new_projects cfgEmpty textNewProject).map (fun c => c.confidence) = [16/25] ∧
    ¬ ((16 : ℚ)/25 = 3/5) := by
  have e1 : scanA ("new project".data) textNewProject = ["zorgon".data] := by
    simp [textNewProject, scanA, ciMatch, isWordCh, isSepCh, pyWS, lowerChar, Char.toLower,
      List.dropWhile_cons, List.takeWhile_cons]
  have e2 : scanA ("upcoming project".data) textNewProject = [] := by
    simp [textNewProject, scanA, ciMatch, isWordCh, isSepCh, pyWS, lowerChar, Char.toLower,
      List.dropWhile_cons, List.takeWhile_cons]
  have e3 : scanB (" is launching".data) textNewProject = [] := by
    simp [textNewProject, scanB, ciMatch, isWordCh, lowerChar, Char.toLower]
  have e4 : scanB (" token launch".data) textNewProject = [] := by
    simp [textNewProject, scanB, ciMatch, isWordCh, lowerChar, Char.toLower]
  have e5 : scanB (" airdrop".data) textNewProject = [] := by
    simp [textNewProject, scanB, ciMatch, isWordCh, lowerChar, Char.toLower]
  have e6 : scanC textNewProject = [] := by
    simp [textNewProject, scanC, ciMatch, isAlphaCh, lowerChar, Char.toLower, launchLit]
  have emc : mentionCount textNewProject ("zorgon".data) = 1 := by
    simp [mentionCount, textNewProject, countOcc, lowerL, lowerChar, Char.toLower]
  have enc : nearbyCount textNewProject = 1 := by
    simp [nearbyCount, nearby_keywords, textNewProject, containsSub, lowerL, lowerChar,
      Char.toLower, List.filter_cons]
  refine ⟨by simp [discovery_patterns, e1, e2, e3, e4, e5, e6], emc, ?_, by norm_num⟩
  simp [detect_new_projects, discovery_patterns, e1, e2, e3, e4, e5, e6,
    dedupCandidates, isTracked, cfgEmpty, discovery_confidence, emc, enc]
  norm_num

/-- Witness for the amended C6 theorem at a concrete text. -/
theorem single_capture_discovery_confidence_witness :
    (discovery_patterns.map (fun pat => pat textQoxat)).flatten = ["qoxat".data] ∧
    isTracked cfgEmpty ("qoxat".data) = false ∧
    mentionCount textQoxat ("qoxat".data) = 1 ∧
    (detect_new_projects cfgEmpty textQoxat =
      [{ name := "qoxat".data, confidence := 3/5 + (nearbyCount textQoxat : ℚ) * (1/25),
         source := "discovery" }] ∧
     1 ≤ nearbyCount textQoxat) := by
  have e1 : scanA ("new project".data) textQoxat = ["qoxat".data] := by
    simp [textQoxat, scanA, ciMatch, isWordCh, isSepCh, pyWS, lowerChar, Char.toLower,
      List.dropWhile_cons, List.takeWhile_cons]
  have e2 : scanA ("upcoming project".data) textQoxat = [] := by
    simp [textQoxat, scanA, ciMatch, isWordCh, isSepCh, pyWS, lowerChar, Char.toLower,
      List.dropWhile_cons, List.takeWhile_cons]
  have e3 : scanB (" is launching".data) textQoxat = [] := by
    simp [textQoxat, scanB, ciMatch, isWordCh, lowerChar, Char.toLower]
  have e4 : scanB (" token launch".data) textQoxat = [] := by
    simp [textQoxat, scanB, ciMatch, isWordCh, lowerChar, Char.toLower]
  have e5 : scanB (" airdrop".data) textQoxat = [] := by
    simp [textQoxat, scanB, ciMatch, isWordCh, lowerChar, Char.toLower]
  have e6 : scanC textQoxat = [] := by
    simp [textQoxat, scanC, ciMatch, isAlphaCh, lowerChar, Char.toLower, launchLit]
  have hjoin : (discovery_patterns.map (fun pat => pat textQoxat)).flatten = ["qoxat".data] := by
    simp [discovery_patterns, e1, e2, e3, e4, e5, e6]
  have huntracked : isTracked cfgEmpty ("qoxat".data) = false := by
    simp [isTracked, cfgEmpty]
  have hsingle : mentionCount textQoxat ("qoxat".data) = 1 := by
    simp [mentionCount, textQoxat, countOcc, lowerL, lowerChar, Char.toLower]
  exact ⟨hjoin, huntracked, hsingle,
    single_capture_discovery_confidence cfgEmpty textQoxat ("qoxat".data)
      hjoin huntracked hsingle⟩

-- ### Character-level facts and membership chains for the normalizer

theorem toNat_ofNat_valid {n : Nat} (h : n.isValidChar) : (Char.ofNat n).toNat = n := by
  simp [Char.ofNat, h, Char.ofNatAux, Char.toNat, UInt32.toNat]

theorem lowerChar_lowerChar (c : Char) : lowerChar (lowerChar c) = lowerChar c := by
  unfold lowerChar Char.toLower
  by_cases h : c.toNat ≥ 65 ∧ c.toNat ≤ 90
  · rw [if_pos h]
    have hv : (c.toNat + 32).isValidChar := Or.inl (by omega)
    have ht : (Char.ofNat (c.toNat + 32)).toNat = c.toNat + 32 := toNat_ofNat_valid hv
    rw [ht, if_neg (by omega)]
  · rw [if_neg h, if_neg h]

theorem schemeLen_head {l : List Char} (h : schemeLen l ≠ 0) :
    ∃ t, l = 'h' :: t := by
  unfold schemeLen at h
  split at h
  · rename_i hp
    rw [List.isPrefixOf_iff_prefix] at hp
    obtain ⟨r, hr⟩ := hp
    exact ⟨'t' :: 't' :: 'p' :: 's' :: ':' :: '/' :: '/' :: r, by rw [← hr]; rfl⟩
  · split at h
    · rename_i hp
      rw [List.isPrefixOf_iff_prefix] at hp
      obtain ⟨r, hr⟩ := hp
      exact ⟨'t' :: 't' :: 'p' :: ':' :: '/' :: '/' :: r, by rw [← hr]; rfl⟩
    · exact absurd rfl h

theorem stripURLs_nil : stripURLs [] = [] := by
  simp [stripURLs]

theorem stripURLs_cons_zero {c : Char} {cs : List Char} (h : schemeLen (c :: cs) = 0) :
    stripURLs (c :: cs) = c :: stripURLs cs := by
  rw [stripURLs, if_pos h]

theorem stripURLs_cons_keep {c : Char} {cs : List Char} (h : ¬ schemeLen (c :: cs) = 0)
    (h2 : List.takeWhile (fun d => !pyWS d)
      (List.drop (schemeLen (c :: cs)) (c :: cs)) = []) :
    stripURLs (c :: cs) = c :: stripURLs cs := by
  rw [stripURLs, if_neg h, if_pos h2]

theorem stripURLs_cons_remove {c : Char} {cs : List Char} (h : ¬ schemeLen (c :: cs) = 0)
    (h2 : ¬ List.takeWhile (fun d => !pyWS d)
      (List.drop (schemeLen (c :: cs)) (c :: cs)) = []) :
    stripURLs (c :: cs) = stripURLs (List.dropWhile (fun d => !pyWS d)
      (List.drop (schemeLen (c :: cs)) (c :: cs))) := by
  rw [stripURLs, if_neg h, if_neg h2]

theorem stripURLs_eq_self_of_no_h {l : List Char} (h : 'h' ∉ l) : stripURLs l = l := by
  induction l using stripURLs.induct with
  | case1 => exact stripURLs_nil
  | case2 c cs hz ih =>
    rw [stripURLs_cons_zero hz, ih (fun hmem => h (by simp [hmem]))]
  | case3 c cs hz htok ih =>
    obtain ⟨t, ht⟩ := schemeLen_head hz
    exact absurd (by rw [ht]; simp) h
  | case4 c cs hz htok ih =>
    obtain ⟨t, ht⟩ := schemeLen_head hz
    exact absurd (by rw [ht]; simp) h

theorem mem_stripURLs {c : Char} {l : List Char} (h : c ∈ stripURLs l) : c ∈ l := by
  induction l using stripURLs.induct with
  | case1 =>
    rw [stripURLs_nil] at h
    simp at h
  | case2 c0 cs hz ih =>
    rw [stripURLs_cons_zero hz] at h
    rcases List.mem_cons.mp h with rfl | h2
    · simp
    · simp [ih h2]
  | case3 c0 cs hz htok ih =>
    rw [stripURLs_cons_keep hz htok] at h
    rcases List.mem_cons.mp h with rfl | h2
    · simp
    · simp [ih h2]
  | case4 c0 cs hz htok ih =>
    rw [stripURLs_cons_remove hz htok] at h
    have h2 := ih h
    have h3 := (List.dropWhile_sublist (fun d => !pyWS d)).subset h2
    exact (List.drop_sublist _ (c0 :: cs)).subset h3

theorem mem_collapseWS {c : Char} {l : List Char} (h : c ∈ collapseWS l) :
    c = ' ' ∨ (c ∈ l ∧ pyWS c = false) := by
  induction l with
  | nil => simpa [collapseWS] using h
  | cons a as ih =>
    by_cases hws : pyWS a
    · rw [show collapseWS (a :: as) =
          (match collapseWS as with
           | ' ' :: t => ' ' :: t
           | r => ' ' :: r) from by rw [collapseWS, if_pos hws]] at h
      rcases hm : collapseWS as with _ | ⟨d, t0⟩
      · rw [hm] at h
        simp at h
        exact Or.inl h
      · by_cases hd : d = ' '
        · subst hd
          rw [hm] at h
          simp only at h
          rcases List.mem_cons.mp h with rfl | h2
          · exact Or.inl rfl
          · rcases ih (by rw [hm]; simp [h2]) with h3 | h3
            · exact Or.inl h3
            · exact Or.inr ⟨by simp [h3.1], h3.2⟩
        · rw [hm] at h
          have hmatch : (match (d :: t0 : List Char) with
              | ' ' :: t => ' ' :: t
              | r => ' ' :: r) = ' ' :: d :: t0 := by
            cases t0 <;> simp [hd]
          rw [hmatch] at h
          rcases List.mem_cons.mp h with rfl | h2
          · exact Or.inl rfl
          · rcases ih (by rw [hm]; exact h2) with h3 | h3
            · exact Or.inl h3
            · exact Or.inr ⟨by simp [h3.1], h3.2⟩
    · rw [show collapseWS (a :: as) = a :: collapseWS as from by
        rw [collapseWS, if_neg hws]] at h
      rcases List.mem_cons.mp h with rfl | h2
      · exact Or.inr ⟨by simp, by simpa using hws⟩
      · rcases ih h2 with h3 | h3
        · exact Or.inl h3
        · exact Or.inr ⟨by simp [h3.1], h3.2⟩

theorem mem_dropTrailingWS {c : Char} {l : List Char} (h : c ∈ dropTrailingWS l) :
    c ∈ l := by
  induction l with
  | nil => simpa [dropTrailingWS] using h
  | cons a as ih =>
    rw [show dropTrailingWS (a :: as) =
        (if pyWS a ∧ dropTrailingWS as = [] then [] else a :: dropTrailingWS as) from rfl] at h
    split at h
    · simp at h
    · rcases List.mem_cons.mp h with rfl | h2
      · simp
      · simp [ih h2]

theorem mem_preprocess_chars {c : Char} {l : List Char} (h : c ∈ preprocess_text l) :
    c = ' ' ∨ c ∈ (l.map lowerChar).map replSym := by
  unfold preprocess_text pyStrip at h
  have h1 := mem_dropTrailingWS h
  have h2 := (List.dropWhile_sublist pyWS).subset h1
  rcases mem_collapseWS h2 with h3 | h3
  · exact Or.inl h3
  · exact Or.inr (mem_stripURLs h3.1)

-- ### C5: the symbol branch of identify_projects is dead

theorem replSym_ne_dollar (d : Char) : replSym d ≠ '$' := by
  unfold replSym
  split
  · decide
  · rename_i h
    simp only [Bool.or_eq_true, decide_eq_true_eq, not_or] at h
    exact h.1.1

theorem no_dollar_preprocess (l : List Char) : '$' ∉ preprocess_text l := by
  intro h
  rcases mem_preprocess_chars h with h1 | h1
  · exact absurd h1 (by decide)
  · rw [List.mem_map] at h1
    obtain ⟨d, _, hd⟩ := h1
    exact replSym_ne_dollar d hd

theorem findSymbols_eq_nil {l : List Char} (h : '$' ∉ l) : findSymbols l = [] := by
  induction l using findSymbols.induct with
  | case1 => simp [findSymbols]
  | case2 cs hcond ih => exact absurd (by simp) h
  | case3 cs hcond ih => exact absurd (by simp) h
  | case4 c cs hc ih =>
    have hrec : findSymbols (c :: cs) = findSymbols cs := by
      rw [findSymbols]
      simp [hc]
    rw [hrec]
    exact ih (fun hmem => h (by simp [hmem]))

theorem mem_dedupByName {p : ProjMatch} {l : List ProjMatch}
    (h : p ∈ dedupByName l) : p ∈ l := by
  have aux : ∀ (m : List ProjMatch) (acc : List ProjMatch),
      p ∈ m.foldl (fun acc q =>
        if acc.any (fun r => r.name = q.name) then acc else acc ++ [q]) acc →
      p ∈ acc ∨ p ∈ m := by
    intro m
    induction m with
    | nil =>
      intro acc h2
      exact Or.inl h2
    | cons q t ih =>
      intro acc h2
      simp only [List.foldl_cons] at h2
      rcases ih _ h2 with hacc | ht
      · by_cases hc : acc.any (fun r => r.name = q.name) = true
        · rw [if_pos hc] at hacc
          exact Or.inl hacc
        · rw [if_neg hc] at hacc
          rcases List.mem_append.mp hacc with h3 | h3
          · exact Or.inl h3
          · simp only [List.mem_singleton] at h3
            subst h3
            exact Or.inr (by simp)
      · exact Or.inr (by simp [ht])
  rcases aux l [] h with h2 | h2
  · simp at h2
  · exact h2

/-- C5 (code bug): the symbol branch of identify_projects is dead code.  The
    regex \$([A-Z]{2,10})\b needs a dollar sign followed by upper-case
    letters, but it runs on the preprocessed text, which is lower-cased and
    has every dollar sign replaced by a space.  Concretely, text mentioning
    the tracked symbol ABC as $ABC yields no candidates at all (the claim
    expects a symbol candidate of confidence 0.7), and in general no
    candidate ever carries source "symbol". -/
theorem symbol_branch_never_fires :
    identify_projects cfgSymbolABC textDollarABC none = [] ∧
    ∀ (cfg : ClassifierConfig) (text : List Char) (ch : Option String),
      ∀ p ∈ identify_projects cfg text ch, p.source ≠ "symbol" := by
  constructor
  · have h1 : (textDollarABC.map lowerChar).map replSym = " abc airdrop".data := by decide
    have h2 : stripURLs (" abc airdrop".data) = " abc airdrop".data :=
      stripURLs_eq_self_of_no_h (by decide)
    have hpre : preprocess_text textDollarABC = "abc airdrop".data := by
      unfold preprocess_text
      rw [h1, h2]
      decide
    have hsym : findSymbols ("abc airdrop".data) = [] :=
      findSymbols_eq_nil (by decide)
    have hcon : findContracts ("abc airdrop".data) = [] := by
      simp [findContracts, isHexCh]
    simp [identify_projects, hpre, channelCandidates, keywordCandidates,
      symbolCandidates, contractCandidates, cfgSymbolABC, hsym, hcon,
      dedupByName, containsSub]
  · intro cfg text ch p hp
    have h1 := mem_dedupByName hp
    have hsym : symbolCandidates cfg (preprocess_text text) = [] := by
      unfold symbolCandidates
      rw [findSymbols_eq_nil (no_dollar_preprocess text)]
      rfl
    rw [hsym] at h1
    simp only [List.append_nil, List.mem_append] at h1
    rcases h1 with (h2 | h2) | h2
    · unfold channelCandidates at h2
      split at h2
      · simp at h2
      · split at h2
        · simp only [List.mem_singleton] at h2
          subst h2
          exact (show ("channel" : String) ≠ "symbol" by decide)
        · simp at h2
    · unfold keywordCandidates at h2
      rw [List.mem_flatMap] at h2
      obtain ⟨e, _, he⟩ := h2
      rw [List.mem_map] at he
      obtain ⟨q, _, hq⟩ := he
      subst hq
      exact (show ("keyword" : String) ≠ "symbol" by decide)
    · unfold contractCandidates at h2
      rw [List.mem_flatMap] at h2
      obtain ⟨e, _, he⟩ := h2
      rw [List.mem_map] at he
      obtain ⟨q, _, hq⟩ := he
      subst hq
      exact (show ("contract" : String) ≠ "symbol" by decide)

-- ### C9: preprocess_text is idempotent — URL-removal analysis

theorem dropWhile_head_not {p : Char → Bool} {X : List Char} {d : Char} {t : List Char}
    (h : X.dropWhile p = d :: t) : p d = false := by
  induction X with
  | nil => simp at h
  | cons a as ih =>
    rw [List.dropWhile_cons] at h
    split at h
    · exact ih h
    · rename_i hpa
      injection h with h1 h2
      subst h1
      simpa using hpa

theorem takeWhile_nil_cases {p : Char → Bool} {X : List Char}
    (h : X.takeWhile p = []) : X = [] ∨ ∃ d t, X = d :: t ∧ p d = false := by
  cases X with
  | nil => exact Or.inl rfl
  | cons d t =>
    rw [List.takeWhile_cons] at h
    split at h
    · simp at h
    · rename_i hp
      exact Or.inr ⟨d, t, rfl, by simpa using hp⟩

theorem matchAtHead_false_of_zero {X : List Char} (h : schemeLen X = 0) :
    matchAtHead X = false := by
  unfold matchAtHead
  rw [if_pos h]

theorem schemeLen_zero_of_head {c : Char} {cs : List Char} (h : c ≠ 'h') :
    schemeLen (c :: cs) = 0 := by
  by_contra hz
  obtain ⟨t, ht⟩ := schemeLen_head hz
  injection ht with h1 _
  exact h h1

theorem matchAtHead_false_of_empty_token {c : Char} {cs : List Char}
    (htok : List.takeWhile (fun d => !pyWS d)
      (List.drop (schemeLen (c :: cs)) (c :: cs)) = []) :
    matchAtHead (c :: cs) = false := by
  unfold matchAtHead
  split
  · rfl
  · rcases takeWhile_nil_cases htok with h1 | ⟨d, t, h1, h2⟩
    · rw [h1]
    · rw [h1]
      simpa using h2

theorem matchAtHead_true_of_token {c : Char} {cs : List Char}
    (hz : ¬ schemeLen (c :: cs) = 0)
    (htok : ¬ List.takeWhile (fun d => !pyWS d)
      (List.drop (schemeLen (c :: cs)) (c :: cs)) = []) :
    matchAtHead (c :: cs) = true := by
  unfold matchAtHead
  rw [if_neg hz]
  rcases hX : List.drop (schemeLen (c :: cs)) (c :: cs) with _ | ⟨d, t⟩
  · rw [hX] at htok
    simp at htok
  · rw [hX] at htok
    rw [List.takeWhile_cons] at htok
    split at htok
    · rename_i hp
      simpa using hp
    · simp at htok

theorem stripURLs_peel {t : List Char} {d : Char} {ds : List Char}
    (h : stripURLs t = d :: ds) (hd : pyWS d = false) :
    ∃ t', t = d :: t' ∧ stripURLs t' = ds ∧ matchAtHead t = false := by
  induction t using stripURLs.induct with
  | case1 =>
    rw [stripURLs_nil] at h
    exact absurd h (by simp)
  | case2 c cs hz ih =>
    rw [stripURLs_cons_zero hz] at h
    injection h with h1 h2
    subst h1
    exact ⟨cs, rfl, h2, matchAtHead_false_of_zero hz⟩
  | case3 c cs hz htok ih =>
    rw [stripURLs_cons_keep hz htok] at h
    injection h with h1 h2
    subst h1
    exact ⟨cs, rfl, h2, matchAtHead_false_of_empty_token htok⟩
  | case4 c cs hz htok ih =>
    exfalso
    rw [stripURLs_cons_remove hz htok] at h
    rcases hX : List.dropWhile (fun e => !pyWS e)
        (List.drop (schemeLen (c :: cs)) (c :: cs)) with _ | ⟨d0, t0⟩
    · rw [hX, stripURLs_nil] at h
      simp at h
    · have hd0 : (!pyWS d0) = false := dropWhile_head_not hX
      have hd0' : pyWS d0 = true := by simpa using hd0
      have hz0 : schemeLen (d0 :: t0) = 0 := by
        apply schemeLen_zero_of_head
        intro heq
        subst heq
        simp [pyWS] at hd0'
      rw [hX, stripURLs_cons_zero hz0] at h
      injection h with h1 _
      subst h1
      rw [hd0'] at hd
      exact absurd hd (by simp)

theorem stripURLs_peel_many {q : List Char} (hq : ∀ a ∈ q, pyWS a = false) :
    ∀ {t r : List Char}, stripURLs t = q ++ r → ∃ t₂, t = q ++ t₂ ∧ stripURLs t₂ = r := by
  induction q with
  | nil =>
    intro t r h
    exact ⟨t, rfl, h⟩
  | cons d q' ih =>
    intro t r h
    obtain ⟨t', ht, h2, -⟩ := stripURLs_peel (by rw [h]; rfl) (hq d (by simp))
    obtain ⟨t₂, ht2, h3⟩ := ih (fun a ha => hq a (by simp [ha])) h2
    exact ⟨t₂, by rw [ht, ht2]; rfl, h3⟩

theorem collapseWS_cons_ws {a : Char} {as : List Char} (hws : pyWS a = true) :
    collapseWS (a :: as) =
      (match collapseWS as with
       | ' ' :: t => ' ' :: t
       | r => ' ' :: r) := by
  rw [collapseWS, if_pos hws]

theorem collapseWS_cons_not_ws {a : Char} {as : List Char} (hws : pyWS a = false) :
    collapseWS (a :: as) = a :: collapseWS as := by
  rw [collapseWS, if_neg (by simp [hws])]

theorem collapseWS_ws_head {a : Char} {as : List Char} (hws : pyWS a = true) :
    ∃ t, collapseWS (a :: as) = ' ' :: t := by
  rw [collapseWS_cons_ws hws]
  rcases hm : collapseWS as with _ | ⟨d, t0⟩
  · exact ⟨[], rfl⟩
  · by_cases hd : d = ' '
    · subst hd
      exact ⟨t0, rfl⟩
    · exact ⟨d :: t0, by cases t0 <;> simp [hd]⟩

theorem collapseWS_peel {t : List Char} {d : Char} {ds : List Char}
    (h : collapseWS t = d :: ds) (hd : pyWS d = false) :
    ∃ t', t = d :: t' ∧ collapseWS t' = ds := by
  cases t with
  | nil => simp [collapseWS] at h
  | cons a as =>
    by_cases hws : pyWS a
    · exfalso
      obtain ⟨t0, ht0⟩ := collapseWS_ws_head (by simpa using hws)
      rw [ht0] at h
      injection h with h1 _
      subst h1
      simp [pyWS] at hd
    · rw [collapseWS_cons_not_ws (by simpa using hws)] at h
      injection h with h1 h2
      subst h1
      exact ⟨as, rfl, h2⟩

theorem collapseWS_peel_many {q : List Char} (hq : ∀ a ∈ q, pyWS a = false) :
    ∀ {t r : List Char}, collapseWS t = q ++ r → ∃ t₂, t = q ++ t₂ ∧ collapseWS t₂ = r := by
  induction q with
  | nil =>
    intro t r h
    exact ⟨t, rfl, h⟩
  | cons d q' ih =>
    intro t r h
    obtain ⟨t', ht, h2⟩ := collapseWS_peel (by rw [h]; rfl) (hq d (by simp))
    obtain ⟨t₂, ht2, h3⟩ := ih (fun a ha => hq a (by simp [ha])) h2
    exact ⟨t₂, by rw [ht, ht2]; rfl, h3⟩

theorem matchAtHead_decompose {X : List Char} (h : matchAtHead X = true) :
    (∃ x rest, X = httpsPre ++ x :: rest ∧ pyWS x = false) ∨
    (∃ x rest, X = httpPre ++ x :: rest ∧ pyWS x = false) := by
  unfold matchAtHead at h
  split at h
  · simp at h
  · rename_i hz
    by_cases hps : httpsPre.isPrefixOf X
    · left
      have hk : schemeLen X = 8 := by
        rw [schemeLen, if_pos hps]
      obtain ⟨rest0, hrest0⟩ := List.isPrefixOf_iff_prefix.mp hps
      have hdrop : List.drop (schemeLen X) X = rest0 := by
        rw [hk, ← hrest0]
        exact List.drop_left httpsPre rest0
      rw [hdrop] at h
      rcases rest0 with _ | ⟨x, rest⟩
      · simp at h
      · exact ⟨x, rest, hrest0.symm, by simpa using h⟩
    · by_cases hp : httpPre.isPrefixOf X
      · right
        have hk : schemeLen X = 7 := by
          rw [schemeLen, if_neg hps, if_pos hp]
        obtain ⟨rest0, hrest0⟩ := List.isPrefixOf_iff_prefix.mp hp
        have hdrop : List.drop (schemeLen X) X = rest0 := by
          rw [hk, ← hrest0]
          exact List.drop_left httpPre rest0
        rw [hdrop] at h
        rcases rest0 with _ | ⟨x, rest⟩
        · simp at h
        · exact ⟨x, rest, hrest0.symm, by simpa using h⟩
      · exact absurd (by rw [schemeLen, if_neg hps, if_neg hp]) hz

theorem https_not_prefix_http (z : List Char) :
    httpsPre.isPrefixOf (httpPre ++ z) = false := by
  simp [httpsPre, httpPre, List.isPrefixOf]

theorem matchAtHead_compose {X : List Char}
    (h : (∃ x rest, X = httpsPre ++ x :: rest ∧ pyWS x = false) ∨
      (∃ x rest, X = httpPre ++ x :: rest ∧ pyWS x = false)) :
    matchAtHead X = true := by
  rcases h with ⟨x, rest, rfl, hx⟩ | ⟨x, rest, rfl, hx⟩
  · have hps : httpsPre.isPrefixOf (httpsPre ++ x :: rest) :=
      List.isPrefixOf_iff_prefix.mpr ⟨_, rfl⟩
    have hk : schemeLen (httpsPre ++ x :: rest) = 8 := by
      rw [schemeLen, if_pos hps]
    unfold matchAtHead
    rw [hk]
    rw [if_neg (by simp)]
    have hdrop : List.drop 8 (httpsPre ++ x :: rest) = x :: rest :=
      List.drop_left httpsPre (x :: rest)
    rw [hdrop]
    simpa using hx
  · have hps : httpsPre.isPrefixOf (httpPre ++ x :: rest) = false :=
      https_not_prefix_http _
    have hp : httpPre.isPrefixOf (httpPre ++ x :: rest) :=
      List.isPrefixOf_iff_prefix.mpr ⟨_, rfl⟩
    have hk : schemeLen (httpPre ++ x :: rest) = 7 := by
      rw [schemeLen, if_neg (by simp [hps]), if_pos hp]
    unfold matchAtHead
    rw [hk]
    rw [if_neg (by simp)]
    have hdrop : List.drop 7 (httpPre ++ x :: rest) = x :: rest :=
      List.drop_left httpPre (x :: rest)
    rw [hdrop]
    simpa using hx

theorem matchAtHead_transfer
    (G : List Char → List Char)
    (peel : ∀ {q : List Char}, (∀ a ∈ q, pyWS a = false) →
      ∀ {t r : List Char}, G t = q ++ r → ∃ t₂, t = q ++ t₂ ∧ G t₂ = r)
    {c : Char} {cs : List Char}
    (h : matchAtHead (c :: G cs) = true) : matchAtHead (c :: cs) = true := by
  rcases matchAtHead_decompose h with ⟨x, rest, heq, hx⟩ | ⟨x, rest, heq, hx⟩
  · have heq2 : c :: G cs =
        'h' :: (['t', 't', 'p', 's', ':', '/', '/'] ++ x :: rest) := heq
    injection heq2 with h1 h2
    subst h1
    have h3 : G cs = (['t', 't', 'p', 's', ':', '/', '/'] ++ [x]) ++ rest := by
      rw [h2]
      simp
    obtain ⟨cs₂, hcs, -⟩ := peel (q := ['t', 't', 'p', 's', ':', '/', '/'] ++ [x])
      (by
        intro a ha
        simp only [List.mem_append, List.mem_singleton] at ha
        rcases ha with ha | rfl
        · fin_cases ha <;> rfl
        · exact hx) h3
    apply matchAtHead_compose
    left
    refine ⟨x, cs₂, ?_, hx⟩
    rw [hcs]
    simp [httpsPre]
  · have heq2 : c :: G cs =
        'h' :: (['t', 't', 'p', ':', '/', '/'] ++ x :: rest) := heq
    injection heq2 with h1 h2
    subst h1
    have h3 : G cs = (['t', 't', 'p', ':', '/', '/'] ++ [x]) ++ rest := by
      rw [h2]
      simp
    obtain ⟨cs₂, hcs, -⟩ := peel (q := ['t', 't', 'p', ':', '/', '/'] ++ [x])
      (by
        intro a ha
        simp only [List.mem_append, List.mem_singleton] at ha
        rcases ha with ha | rfl
        · fin_cases ha <;> rfl
        · exact hx) h3
    apply matchAtHead_compose
    right
    refine ⟨x, cs₂, ?_, hx⟩
    rw [hcs]
    simp [httpPre]

theorem stripURLs_peel_plain {t : List Char} {d : Char} {ds : List Char}
    (h : stripURLs t = d :: ds) (hd : pyWS d = false) :
    ∃ t', t = d :: t' ∧ stripURLs t' = ds := by
  obtain ⟨t', h1, h2, -⟩ := stripURLs_peel h hd
  exact ⟨t', h1, h2⟩

theorem hasURL_cons (c : Char) (cs : List Char) :
    hasURL (c :: cs) = (matchAtHead (c :: cs) || hasURL cs) := rfl

theorem hasURL_stripURLs (w : List Char) : hasURL (stripURLs w) = false := by
  induction w using stripURLs.induct with
  | case1 =>
    rw [stripURLs_nil]
    rfl
  | case2 c cs hz ih =>
    rw [stripURLs_cons_zero hz, hasURL_cons, ih, Bool.or_false]
    by_contra hb
    rw [Bool.not_eq_false] at hb
    have h2 := matchAtHead_transfer stripURLs (fun hq => stripURLs_peel_many hq) hb
    rw [matchAtHead_false_of_zero hz] at h2
    exact absurd h2 (by simp)
  | case3 c cs hz htok ih =>
    rw [stripURLs_cons_keep hz htok, hasURL_cons, ih, Bool.or_false]
    by_contra hb
    rw [Bool.not_eq_false] at hb
    have h2 := matchAtHead_transfer stripURLs (fun hq => stripURLs_peel_many hq) hb
    rw [matchAtHead_false_of_empty_token htok] at h2
    exact absurd h2 (by simp)
  | case4 c cs hz htok ih =>
    rw [stripURLs_cons_remove hz htok]
    exact ih

theorem stripURLs_eq_self_of_no_url {l : List Char} (h : hasURL l = false) :
    stripURLs l = l := by
  induction l with
  | nil => exact stripURLs_nil
  | cons c cs ih =>
    rw [hasURL_cons, Bool.or_eq_false_iff] at h
    by_cases hz : schemeLen (c :: cs) = 0
    · rw [stripURLs_cons_zero hz, ih h.2]
    · by_cases htok : List.takeWhile (fun d => !pyWS d)
          (List.drop (schemeLen (c :: cs)) (c :: cs)) = []
      · rw [stripURLs_cons_keep hz htok, ih h.2]
      · exact absurd (matchAtHead_true_of_token hz htok) (by rw [h.1]; simp)

theorem hasURL_append_right {r : List Char} (h : hasURL r = true) (pre : List Char) :
    hasURL (pre ++ r) = true := by
  induction pre with
  | nil => exact h
  | cons a pre' ih =>
    rw [List.cons_append, hasURL_cons, ih]
    simp

theorem matchAtHead_append {X v : List Char} (h : matchAtHead X = true) :
    matchAtHead (X ++ v) = true := by
  rcases matchAtHead_decompose h with ⟨x, rest, rfl, hx⟩ | ⟨x, rest, rfl, hx⟩
  · apply matchAtHead_compose
    left
    exact ⟨x, rest ++ v, by simp, hx⟩
  · apply matchAtHead_compose
    right
    exact ⟨x, rest ++ v, by simp, hx⟩

theorem hasURL_append_left {u : List Char} (h : hasURL u = true) (v : List Char) :
    hasURL (u ++ v) = true := by
  induction u with
  | nil => simp [hasURL] at h
  | cons a u' ih =>
    rw [hasURL_cons] at h
    rw [List.cons_append, hasURL_cons]
    rcases Bool.or_eq_true_iff.mp h with h1 | h1
    · have h2 : matchAtHead (a :: (u' ++ v)) = true := matchAtHead_append h1
      rw [h2]
      simp
    · rw [ih h1]
      simp

theorem hasURL_collapseWS {t : List Char} (h : hasURL (collapseWS t) = true) :
    hasURL t = true := by
  induction t with
  | nil => simpa [collapseWS, hasURL] using h
  | cons a as ih =>
    by_cases hws : pyWS a
    · rw [collapseWS_cons_ws (by simpa using hws)] at h
      rcases hm : collapseWS as with _ | ⟨d, t0⟩
      · rw [hm] at h
        simp only at h
        rw [hasURL_cons] at h ⊢
        rcases Bool.or_eq_true_iff.mp h with h1 | h1
        · exfalso
          have hz : schemeLen ([' '] : List Char) = 0 :=
            schemeLen_zero_of_head (by decide)
          rw [matchAtHead_false_of_zero hz] at h1
          exact absurd h1 (by simp)
        · simp [hasURL] at h1
      · by_cases hd : d = ' '
        · subst hd
          rw [hm] at h
          simp only at h
          have h2 := ih (by rw [hm]; exact h)
          rw [hasURL_cons, h2]
          simp
        · rw [hm] at h
          have hmatch : (match (d :: t0 : List Char) with
              | ' ' :: t => ' ' :: t
              | r => ' ' :: r) = ' ' :: d :: t0 := by
            cases t0 <;> simp [hd]
          rw [hmatch] at h
          rw [hasURL_cons] at h
          rcases Bool.or_eq_true_iff.mp h with h1 | h1
          · exfalso
            have hz : schemeLen (' ' :: d :: t0) = 0 :=
              schemeLen_zero_of_head (by decide)
            rw [matchAtHead_false_of_zero hz] at h1
            exact absurd h1 (by simp)
          · have h2 := ih (by rw [hm]; exact h1)
            rw [hasURL_cons, h2]
            simp
    · rw [collapseWS_cons_not_ws (by simpa using hws)] at h
      rw [hasURL_cons] at h ⊢
      rcases Bool.or_eq_true_iff.mp h with h1 | h1
      · have h2 := matchAtHead_transfer collapseWS
          (fun hq => collapseWS_peel_many hq) h1
        rw [h2]
        simp
      · rw [ih h1]
        simp

theorem dropTrailingWS_decompose (l : List Char) :
    ∃ rest, l = dropTrailingWS l ++ rest := by
  induction l with
  | nil => exact ⟨[], rfl⟩
  | cons a as ih =>
    obtain ⟨rest, hrest⟩ := ih
    rw [show dropTrailingWS (a :: as) =
        (if pyWS a ∧ dropTrailingWS as = [] then [] else a :: dropTrailingWS as) from rfl]
    split
    · exact ⟨a :: as, rfl⟩
    · exact ⟨rest, by rw [List.cons_append, ← hrest]⟩

theorem hasURL_pyStrip {l : List Char} (h : hasURL (pyStrip l) = true) :
    hasURL l = true := by
  unfold pyStrip at h
  obtain ⟨rest, hrest⟩ := dropTrailingWS_decompose (l.dropWhile pyWS)
  have h2 : hasURL (l.dropWhile pyWS) = true := by
    rw [hrest]
    exact hasURL_append_left h rest
  have h3 : hasURL (List.takeWhile pyWS l ++ List.dropWhile pyWS l) = true :=
    hasURL_append_right h2 _
  rwa [List.takeWhile_append_dropWhile] at h3

-- ### C9: whitespace-collapse and strip fixed points

theorem collapseWS_chain (t : List Char) :
    List.Chain' (fun a b => pyWS a = false ∨ pyWS b = false) (collapseWS t) := by
  induction t with
  | nil => simp [collapseWS]
  | cons a as ih =>
    by_cases hws : pyWS a
    · rw [collapseWS_cons_ws (by simpa using hws)]
      rcases hm : collapseWS as with _ | ⟨d, t0⟩
      · simp
      · by_cases hd : d = ' '
        · subst hd
          show List.Chain' _ (' ' :: t0)
          rw [← hm]
          exact ih
        · have hmatch : (match (d :: t0 : List Char) with
              | ' ' :: t => ' ' :: t
              | r => ' ' :: r) = ' ' :: d :: t0 := by
            cases t0 <;> simp [hd]
          rw [hmatch]
          rw [List.chain'_cons]
          constructor
          · right
            rcases mem_collapseWS (by rw [hm]; simp : d ∈ collapseWS as) with h1 | h1
            · exact absurd h1 hd
            · exact h1.2
          · rw [← hm]
            exact ih
    · rw [collapseWS_cons_not_ws (by simpa using hws)]
      rw [List.chain'_cons']
      exact ⟨fun b _ => Or.inl (by simpa using hws), ih⟩

theorem collapseWS_fix {t : List Char}
    (hws : ∀ c ∈ t, pyWS c = true → c = ' ')
    (hch : List.Chain' (fun a b => pyWS a = false ∨ pyWS b = false) t) :
    collapseWS t = t := by
  induction t with
  | nil => rfl
  | cons a as ih =>
    by_cases hwa : pyWS a
    · have ha : a = ' ' := hws a (by simp) (by simpa using hwa)
      subst ha
      rw [collapseWS_cons_ws (by simpa using hwa)]
      have has : collapseWS as = as :=
        ih (fun c hc h => hws c (by simp [hc]) h) hch.tail
      rw [has]
      cases as with
      | nil => rfl
      | cons b t0 =>
        have hb : pyWS b = false := by
          rcases List.chain'_cons.mp hch with ⟨hr, -⟩
          rcases hr with h1 | h1
          · rw [show pyWS ' ' = true from rfl] at h1
            exact absurd h1 (by simp)
          · exact h1
        have hbne : b ≠ ' ' := by
          intro hbe
          subst hbe
          simp [pyWS] at hb
        cases t0 <;> simp [hbne]
    · rw [collapseWS_cons_not_ws (by simpa using hwa)]
      rw [ih (fun c hc h => hws c (by simp [hc]) h) hch.tail]

theorem dropTrailingWS_idem (l : List Char) :
    dropTrailingWS (dropTrailingWS l) = dropTrailingWS l := by
  induction l with
  | nil => rfl
  | cons a as ih =>
    rw [show dropTrailingWS (a :: as) =
        (if pyWS a ∧ dropTrailingWS as = [] then [] else a :: dropTrailingWS as) from rfl]
    split
    · rfl
    · rename_i hcond
      rw [show dropTrailingWS (a :: dropTrailingWS as) =
          (if pyWS a ∧ dropTrailingWS (dropTrailingWS as) = []
           then [] else a :: dropTrailingWS (dropTrailingWS as)) from rfl]
      rw [ih, if_neg hcond]

theorem dropWhile_eq_self_of_head {l : List Char} {p : Char → Bool}
    (h : l = [] ∨ ∃ d t, l = d :: t ∧ p d = false) : l.dropWhile p = l := by
  rcases h with rfl | ⟨d, t, rfl, hd⟩
  · rfl
  · rw [List.dropWhile_cons, if_neg (by simp [hd])]

theorem pyStrip_fix (l : List Char) : pyStrip (pyStrip l) = pyStrip l := by
  unfold pyStrip
  have hdw : (dropTrailingWS (l.dropWhile pyWS)).dropWhile pyWS
      = dropTrailingWS (l.dropWhile pyWS) := by
    apply dropWhile_eq_self_of_head
    rcases hY : dropTrailingWS (l.dropWhile pyWS) with _ | ⟨d, t⟩
    · exact Or.inl rfl
    · right
      refine ⟨d, t, rfl, ?_⟩
      obtain ⟨rest, hrest⟩ := dropTrailingWS_decompose (l.dropWhile pyWS)
      rw [hY] at hrest
      exact dropWhile_head_not (X := l) (by rw [hrest]; rfl)
  rw [hdw, dropTrailingWS_idem]

-- ### Character fixed points of lower-casing and symbol replacement

theorem replSym_lowerChar_fix (x : Char) :
    replSym (lowerChar (replSym (lowerChar x))) = replSym (lowerChar x) := by
  by_cases h : (lowerChar x = '$' || lowerChar x = '#' || lowerChar x = '@') = true
  · have h1 : replSym (lowerChar x) = ' ' := by
      unfold replSym
      rw [if_pos h]
    rw [h1]
    decide
  · have h1 : replSym (lowerChar x) = lowerChar x := by
      unfold replSym
      rw [if_neg h]
    rw [h1, lowerChar_lowerChar, h1]

theorem replSym_lowerChar_space : replSym (lowerChar ' ') = ' ' := by decide

-- ### C9: the main idempotence theorem

/-- C9: preprocess_text is idempotent: normalizing already-normalized text
    changes nothing.  The output is lower-case with the marker characters
    gone, contains no URL-regex match (removal junctions always sit before
    whitespace or the end), and has collapsed, stripped whitespace, so every
    stage of a second pass is the identity. -/
theorem preprocess_text_idempotent (l : List Char) :
    preprocess_text (preprocess_text l) = preprocess_text l := by
  have hmap : ((preprocess_text l).map lowerChar).map replSym = preprocess_text l := by
    rw [List.map_map]
    have hcc : ∀ c ∈ preprocess_text l, (replSym ∘ lowerChar) c = id c := by
      intro c hc
      rcases mem_preprocess_chars hc with rfl | hcm
      · exact replSym_lowerChar_space
      · rw [List.map_map, List.mem_map] at hcm
        obtain ⟨d, -, hd⟩ := hcm
        rw [← hd]
        exact replSym_lowerChar_fix d
    rw [List.map_congr_left hcc, List.map_id]
  have hurl : hasURL (preprocess_text l) = false := by
    by_contra hb
    rw [Bool.not_eq_false] at hb
    have h1 : hasURL (collapseWS (stripURLs ((l.map lowerChar).map replSym))) = true := by
      have := hasURL_pyStrip (l := collapseWS (stripURLs ((l.map lowerChar).map replSym))) hb
      exact this
    have h2 := hasURL_collapseWS h1
    rw [hasURL_stripURLs] at h2
    exact absurd h2 (by simp)
  have hfix1 : stripURLs (preprocess_text l) = preprocess_text l :=
    stripURLs_eq_self_of_no_url hurl
  have hfix2 : collapseWS (preprocess_text l) = preprocess_text l := by
    apply collapseWS_fix
    · intro c hc hws
      unfold preprocess_text pyStrip at hc
      have h1 := mem_dropTrailingWS hc
      have h2 := (List.dropWhile_sublist pyWS).subset h1
      rcases mem_collapseWS h2 with h3 | h3
      · exact h3
      · rw [hws] at h3
        exact absurd h3.2 (by simp)
    · have hch := collapseWS_chain (stripURLs ((l.map lowerChar).map replSym))
      obtain ⟨rest, hrest⟩ :=
        dropTrailingWS_decompose ((collapseWS (stripURLs ((l.map lowerChar).map replSym))).dropWhile pyWS)
      have hsuffix : (collapseWS (stripURLs ((l.map lowerChar).map replSym))).dropWhile pyWS
          <:+ collapseWS (stripURLs ((l.map lowerChar).map replSym)) :=
        ⟨List.takeWhile pyWS (collapseWS (stripURLs ((l.map lowerChar).map replSym))),
          List.takeWhile_append_dropWhile pyWS _⟩
      have hch2 := hch.suffix hsuffix
      have hpre : preprocess_text l
          <+: (collapseWS (stripURLs ((l.map lowerChar).map replSym))).dropWhile pyWS := by
        exact ⟨rest, hrest.symm⟩
      exact hch2.prefix hpre
  have hfix3 : pyStrip (preprocess_text l) = preprocess_text l := by
    have h1 : preprocess_text l = pyStrip (collapseWS (stripURLs ((l.map lowerChar).map replSym))) := rfl
    rw [h1, pyStrip_fix]
  calc preprocess_text (preprocess_text l)
      = pyStrip (collapseWS (stripURLs (((preprocess_text l).map lowerChar).map replSym))) := rfl
    _ = pyStrip (collapseWS (stripURLs (preprocess_text l))) := by rw [hmap]
    _ = pyStrip (collapseWS (preprocess_text l)) := by rw [hfix1]
    _ = pyStrip (preprocess_text l) := by rw [hfix2]
    _ = preprocess_text l := hfix3
